import Mathlib

/-
Verification development for the C++ FFI generator
(src/cpp_to_rust/cpp_to_rust_generator/src/cpp_ffi_generator.rs).

The file shallowly embeds the generator: the data model (CppType, CppMethod,
CppFfiHeaderData, ...), the method eligibility filter (should_process_method),
the per-unit name-collision resolution (process_methods), the slot-wrapper
synthesizer (generate_slot_wrappers) and the driver (run).

Code of the repository living outside cpp_ffi_generator.rs (cpp_type.rs,
cpp_ffi_data.rs, caption_strategy.rs, the error-chain machinery, ...) is not
part of the analysed source tree; those collaborators enter the embedding as
abstract fields of a generator environment (GenEnv), or, where a concrete
shape is required, as definitions modelled from the specification and marked
as such.  Logging via log::llog / log::error is modelled as an explicit list
of log entries threaded through process_methods; debug logging inside
should_process_method does not affect control flow and is omitted there.
-/

set_option maxHeartbeats 2000000

namespace CppFfiGen

/-- Visibility of a class member (cpp_data::CppVisibility). -/
inductive CppVisibility where
  | Public
  | Protected
  | Private
  deriving DecidableEq

/-- Kind of a method (cpp_method::CppMethodKind). -/
inductive CppMethodKind where
  | Constructor
  | Destructor
  | Regular
  deriving DecidableEq

/-- Allocation place for by-value class types (cpp_data::CppTypeAllocationPlace). -/
inductive CppTypeAllocationPlace where
  | Stack
  | Heap
  deriving DecidableEq

/-- Indirection of a C++ type (cpp_type::CppTypeIndirection), reduced to the
variants the data model of the spec names: none, pointer, reference. -/
inductive CppTypeIndirection where
  | none
  | ptr
  | ref
  deriving DecidableEq

mutual

/-- A C++ type (cpp_type::CppType): a base plus indirection and two const
qualifiers, exactly as the source constructs values of it. -/
inductive CppType where
  | mk (base : CppTypeBase) (indirection : CppTypeIndirection)
      (is_const : Bool) (is_const2 : Bool)

/-- Base of a C++ type (cpp_type::CppTypeBase), following the data model of the
spec: void, primitive, unresolved template parameter, class reference,
function pointer. -/
inductive CppTypeBase where
  | Void
  | BuiltInNumeric (name : String)
  | TemplateParameter (nested_level : Nat) (index : Nat)
  | Class (base : CppTypeClassBase)
  | FunctionPointer (t : CppFunctionPointerType)

/-- A class name with optional template arguments (cpp_type::CppTypeClassBase). -/
inductive CppTypeClassBase where
  | mk (name : String) (template_arguments : Option CppTypeList)

/-- A function pointer type (cpp_type::CppFunctionPointerType). -/
inductive CppFunctionPointerType where
  | mk (return_type : CppType) (arguments : CppTypeList)
      (allows_variadic_arguments : Bool)

/-- A list of C++ types, kept inside the mutual block to avoid a nested
inductive occurrence of List. -/
inductive CppTypeList where
  | nil
  | cons (head : CppType) (tail : CppTypeList)

end

/-- The base of a type. -/
def CppType.base : CppType → CppTypeBase
  | .mk b _ _ _ => b

/-- The indirection of a type. -/
def CppType.indirection : CppType → CppTypeIndirection
  | .mk _ i _ _ => i

/-- The name of a class base. -/
def CppTypeClassBase.name : CppTypeClassBase → String
  | .mk n _ => n

/-- Conversion from an ordinary list of types. -/
def CppTypeList.ofList : List CppType → CppTypeList
  | [] => .nil
  | t :: ts => .cons t (CppTypeList.ofList ts)

/-- CppType::void() from cpp_type.rs: plain void, no indirection, not const. -/
def CppType.void : CppType := .mk .Void .none false false

/-- Class membership data of a method (cpp_method::CppMethodClassMembership). -/
structure CppMethodClassMembership where
  class_type : CppTypeClassBase
  is_virtual : Bool
  is_pure_virtual : Bool
  is_const : Bool
  is_static : Bool
  visibility : CppVisibility
  is_signal : Bool
  is_slot : Bool
  kind : CppMethodKind
  fake : Option Unit

/-- One formal argument of a method (cpp_method::CppFunctionArgument). -/
structure CppFunctionArgument where
  name : String
  argument_type : CppType
  has_default_value : Bool

/-- A C++ method (cpp_method::CppMethod).  Fields whose payload the analysed
source never inspects (it only checks presence or copies them) are modelled
with a Unit payload. -/
structure CppMethod where
  name : String
  class_membership : Option CppMethodClassMembership
  operator : Option String
  return_type : CppType
  arguments : List CppFunctionArgument
  arguments_before_omitting : Option (List CppFunctionArgument)
  allows_variadic_arguments : Bool
  include_file : String
  origin_location : Option Unit
  template_arguments : Option Unit
  template_arguments_values : Option Unit
  declaration_code : Option String
  doc : Option Unit
  inheritance_chain : List Unit
  is_ffi_whitelisted : Bool
  is_unsafe_static_cast : Bool
  is_direct_static_cast : Bool
  is_fake_inherited_method : Bool

/-- CppMethod::class_name(): the owning class name, if the method is a member. -/
def CppMethod.class_name (m : CppMethod) : Option String :=
  m.class_membership.map fun mem => mem.class_type.name

/-- The class name with the unwrap_or on an empty string applied, as the
source computes it in should_process_method. -/
def CppMethod.class_name_or_empty (m : CppMethod) : String :=
  match m.class_membership with
  | some mem => mem.class_type.name
  | none => ""

/-- An FFI-translated type (cpp_ffi_data::CppFfiType).  The analysed source
only reads the ffi_type field; the original type and the conversion tag stay
with the external translator. -/
structure CppFfiType where
  ffi_type : CppType

/-- The FFI signature of a method (cpp_ffi_data::CppFfiFunctionSignature),
reduced to the per-argument and per-return translated types the spec names. -/
structure CppFfiFunctionSignature where
  arguments : List CppFfiType
  return_type : CppFfiType

/-- A method together with its translated FFI signature
(cpp_ffi_data::CppMethodWithFfiSignature). -/
structure CppMethodWithFfiSignature where
  cpp_method : CppMethod
  allocation_place : CppTypeAllocationPlace
  c_signature : CppFfiFunctionSignature

/-- A method with its final exported name (cpp_ffi_data::CppAndFfiMethod);
CppAndFfiMethod::new pairs a CppMethodWithFfiSignature with the name. -/
structure CppAndFfiMethod where
  cpp_method : CppMethod
  allocation_place : CppTypeAllocationPlace
  c_signature : CppFfiFunctionSignature
  c_name : String

/-- CppAndFfiMethod::new. -/
def mkCppAndFfiMethod (v : CppMethodWithFfiSignature) (name : String) :
    CppAndFfiMethod :=
  ⟨v.cpp_method, v.allocation_place, v.c_signature, name⟩

/-- A synthesized slot wrapper descriptor (cpp_ffi_data::QtSlotWrapper). -/
structure QtSlotWrapper where
  class_name : String
  arguments : List CppFfiType
  function_type : CppFunctionPointerType
  receiver_id : String

/-- One output header (cpp_ffi_data::CppFfiHeaderData). -/
structure CppFfiHeaderData where
  include_file_base_name : String
  methods : List CppAndFfiMethod
  qt_slot_wrappers : List QtSlotWrapper

/-- Modelled from the spec: caption_strategy.rs is not under the analysed
sources.  The spec fixes a list of method captioning strategies ordered from
least to most verbose (only-differing-argument-types, all-argument-types,
fully-qualified-types-with-indirection-and-const). -/
inductive MethodCaptionStrategy where
  | argsShort
  | argsFull
  | constAndArgsFull
  deriving DecidableEq

/-- Modelled from the spec: MethodCaptionStrategy::all(), the fixed strategy
order tried by the collision resolver. -/
def MethodCaptionStrategy.all : List MethodCaptionStrategy :=
  [.argsShort, .argsFull, .constAndArgsFull]

/-- Errors are modelled as an error-chain: a list of messages, the most recent
first, as produced by common::errors (chain_err pushes a message in front). -/
abbrev GenErr := List String

/-- common::errors::unexpected wrapped in Into::into. -/
def unexpectedErr (s : String) : GenErr := [s]

/-- One log line: log::llog debug output, log::error output or log::status
output, with the formatted message. -/
inductive LogEntry where
  | debug (msg : String)
  | error (msg : String)
  | status (msg : String)
  deriving DecidableEq

/-- Rendering of an error chain inside a formatted log message. -/
def errText (e : GenErr) : String :=
  let sep : String := ": "
  String.intercalate sep e

/-- The generator environment: the input CppData snapshot, the configuration,
and the external collaborators of cpp_ffi_generator.rs (functions defined in
cpp_method.rs, cpp_type.rs, cpp_ffi_data.rs and the filter closures from the
Config).  The analysed source treats all of them as opaque calls, so the
embedding abstracts them as fields. -/
structure GenEnv where
  /-- CppData::methods. -/
  methods : List CppMethod
  /-- CppData::signal_argument_types: the distinct observed tuples. -/
  signal_argument_types : List (List CppType)
  /-- CppData::all_include_files(), a fallible set of include file names;
  the set is modelled as its list of elements (in arbitrary order). -/
  all_include_files : Except GenErr (List String)
  /-- CppData::has_pure_virtual_methods(class_name). -/
  has_pure_virtual_methods : String → Bool
  /-- Configuration: name of the wrapper library. -/
  cpp_ffi_lib_name : String
  /-- Configuration: the ordered FFI filters. -/
  filters : List (CppMethod → Except GenErr Bool)
  /-- CppMethod::all_involved_types(). -/
  all_involved_types : CppMethod → List CppType
  /-- CppTypeBase::is_or_contains_template_parameter(). -/
  is_or_contains_template_parameter : CppTypeBase → Bool
  /-- CppMethod::to_ffi_signature(cpp_data, allocation_place_override): yields
  the allocation place and the translated signature.  Per the spec the
  translation is a pure derivation that never mutates the method, so the
  embedding pairs the untouched method with this result itself. -/
  to_ffi_signature : CppMethod → Option CppTypeAllocationPlace →
      Except GenErr (CppTypeAllocationPlace × CppFfiFunctionSignature)
  /-- cpp_ffi_data::c_base_name(method, allocation_place, include_file_base_name). -/
  c_base_name : CppMethod → CppTypeAllocationPlace → String → Except GenErr String
  /-- CppFfiFunctionSignature::caption(strategy). -/
  caption : CppFfiFunctionSignature → MethodCaptionStrategy → Except GenErr String
  /-- CppType::caption(TypeCaptionStrategy::Full). -/
  type_caption_full : CppType → Except GenErr String
  /-- CppType::to_cpp_ffi_type(role). -/
  to_cpp_ffi_type : CppType → Except GenErr CppFfiType
  /-- CppMethod::receiver_id(). -/
  receiver_id : CppMethod → Except GenErr String
  /-- CppMethod::short_text(), the human readable signature used in logs. -/
  short_text : CppMethod → String

/-- common::utils::add_to_multihash on an association list: the value is
appended to the entry of the key (entries keep first-insertion key order, the
per-key lists keep insertion order). -/
def addToMultihash {α : Type} (acc : List (String × List α)) (k : String)
    (v : α) : List (String × List α) :=
  match acc with
  | [] => [(k, [v])]
  | (k0, vs) :: rest =>
    if k0 = k then (k0, vs ++ [v]) :: rest
    else (k0, vs) :: addToMultihash rest k v

/-- The filter loop of should_process_method: each configured filter runs in
order; an error is chained with the fixed message, the first false rejects. -/
def runFilters (m : CppMethod) :
    List (CppMethod → Except GenErr Bool) → Except GenErr Bool
  | [] => .ok true
  | f :: fs =>
    match f m with
    | .error e => .error (List.cons "cpp_ffi_generator_filter failed" e)
    | .ok false => .ok false
    | .ok true => runFilters m fs

/-- CppFfiGenerator::should_process_method, with the checks in source order:
fake-inherited methods, the configured filters, the QFlags class, constructors
of abstract classes, private and protected members, signals, own template
parameters, non-whitelisted template instantiations, and types containing
template parameters. -/
def should_process_method (env : GenEnv) (m : CppMethod) : Except GenErr Bool :=
  if m.is_fake_inherited_method then .ok false
  else
    match runFilters m env.filters with
    | .error e => .error e
    | .ok false => .ok false
    | .ok true =>
      if m.class_name_or_empty = "QFlags" then .ok false
      else
        match m.class_membership with
        | some mem =>
          if mem.kind = CppMethodKind.Constructor ∧
              env.has_pure_virtual_methods m.class_name_or_empty = true then
            .ok false
          else if mem.visibility = CppVisibility.Private then .ok false
          else if mem.visibility = CppVisibility.Protected then .ok false
          else if mem.is_signal then .ok false
          else should_process_method_rest env m
        | none => should_process_method_rest env m

where
  /-- The trailing template-related checks shared by members and free
  functions. -/
  should_process_method_rest (env : GenEnv) (m : CppMethod) :
      Except GenErr Bool :=
    if m.template_arguments.isSome then .ok false
    else if m.template_arguments_values.isSome && !m.is_ffi_whitelisted then
      .ok false
    else if (env.all_involved_types m).any
        (fun x => env.is_or_contains_template_parameter x.base) then .ok false
    else .ok true

/-- The formatted skip message logged when a method cannot be given a C
function (both the to_ffi_signature and the c_base_name failure arm). -/
def unableMsg (env : GenEnv) (m : CppMethod) (e : GenErr) : String :=
  "Unable to produce C function for method:\n" ++ env.short_text m ++
    "\nError:" ++ errText e ++ "\n"

/-- Phase one of process_methods: the loop over the input methods that builds
the base-name multihash, skipping ineligible methods and logging (and
skipping) methods whose signature translation or base name derivation fails.
Mirrors the first for-loop of CppFfiGenerator::process_methods. -/
def collectMethods (env : GenEnv) (include_file_base_name : String)
    (ovr : Option CppTypeAllocationPlace) :
    List CppMethod → List (String × List CppMethodWithFfiSignature) →
    List LogEntry × Except GenErr (List (String × List CppMethodWithFfiSignature))
  | [], acc => ([], .ok acc)
  | m :: rest, acc =>
    match should_process_method env m with
    | .error e => ([], .error e)
    | .ok false => collectMethods env include_file_base_name ovr rest acc
    | .ok true =>
      match env.to_ffi_signature m ovr with
      | .error msg =>
        let r := collectMethods env include_file_base_name ovr rest acc
        (LogEntry.debug (unableMsg env m msg) :: r.1, r.2)
      | .ok (place, csig) =>
        match env.c_base_name m place include_file_base_name with
        | .error msg =>
          let r := collectMethods env include_file_base_name ovr rest acc
          (LogEntry.debug (unableMsg env m msg) :: r.1, r.2)
        | .ok name =>
          let value : CppMethodWithFfiSignature :=
            ⟨m, place, csig⟩
          collectMethods env include_file_base_name ovr rest
            (addToMultihash acc (env.cpp_ffi_lib_name ++ "_" ++ name) value)

/-- The inner check of one captioning strategy over one collision group: walk
the members, computing each caption; a caption error aborts, a caption already
seen means the strategy is rejected.  Mirrors the type_captions HashSet loop. -/
def checkStrategy (env : GenEnv) (s : MethodCaptionStrategy) :
    List CppMethodWithFfiSignature → List String → Except GenErr Bool
  | [], _ => .ok true
  | v :: vs, seen =>
    match env.caption v.c_signature s with
    | .error e => .error e
    | .ok c =>
      if seen.contains c then .ok false
      else checkStrategy env s vs (c :: seen)

/-- The strategy search of process_methods: try the strategies in order,
return the first accepted one (found_strategy). -/
def findStrategy (env : GenEnv) (vs : List CppMethodWithFfiSignature) :
    List MethodCaptionStrategy → Except GenErr (Option MethodCaptionStrategy)
  | [] => .ok none
  | s :: rest =>
    match checkStrategy env s vs [] with
    | .error e => .error e
    | .ok true => .ok (some s)
    | .ok false => findStrategy env vs rest

/-- Committing one accepted strategy to a collision group: every member gets
the base name when its caption is empty, otherwise base name, underscore,
caption.  Mirrors the commit loop of process_methods. -/
def commitStrategy (env : GenEnv) (key : String) (s : MethodCaptionStrategy) :
    List CppMethodWithFfiSignature → Except GenErr (List CppAndFfiMethod)
  | [] => .ok []
  | v :: vs =>
    match env.caption v.c_signature s with
    | .error e => .error e
    | .ok c =>
      match commitStrategy env key s vs with
      | .error e => .error e
      | .ok es =>
        .ok (mkCppAndFfiMethod v
          (if c = "" then key else key ++ "_" ++ c) :: es)

/-- The error dump written by process_methods when every captioning strategy
failed on one group: the values dump, the headline, and one line per
colliding method with its human readable signature. -/
def exhaustionDump (env : GenEnv) (vs : List CppMethodWithFfiSignature) :
    List LogEntry :=
  LogEntry.error "values dump" ::
    LogEntry.error "All type caption strategies have failed! Involved functions:" ::
    vs.map fun v => LogEntry.error ("  " ++ env.short_text v.cpp_method)

/-- Resolution of a single collision group (one iteration of the second loop
of process_methods): a singleton keeps the key as its name; a larger group is
resolved by the first accepted strategy, and if none is accepted the run is
aborted after dumping every colliding signature. -/
def resolveGroup (env : GenEnv) (key : String)
    (vs : List CppMethodWithFfiSignature) :
    List LogEntry × Except GenErr (List CppAndFfiMethod) :=
  match vs with
  | [v] => ([], .ok [mkCppAndFfiMethod v key])
  | _ =>
    match findStrategy env vs MethodCaptionStrategy.all with
    | .error e => ([], .error e)
    | .ok (some s) => ([], commitStrategy env key s vs)
    | .ok none =>
      (exhaustionDump env vs,
        .error (unexpectedErr "all type caption strategies have failed"))

/-- Phase two of process_methods: resolve the groups one after the other in
the given iteration order, concatenating the per-group entries; the first
failing group aborts. -/
def resolveGroups (env : GenEnv) :
    List (String × List CppMethodWithFfiSignature) →
    List LogEntry × Except GenErr (List CppAndFfiMethod)
  | [] => ([], .ok [])
  | g :: gs =>
    match resolveGroup env g.1 g.2 with
    | (logs, .error e) => (logs, .error e)
    | (logs, .ok es) =>
      let r := resolveGroups env gs
      (logs ++ r.1, r.2.map fun rest => es ++ rest)

/-- Lexicographic less-or-equal on lists of naturals, the order under which
names are sorted (on the character values it coincides with the byte order
Rust's String comparison uses for the ASCII names involved). -/
def lexLe : List Nat → List Nat → Bool
  | [], _ => true
  | _ :: _, [] => false
  | a :: as, b :: bs =>
    if a < b then true else if a = b then lexLe as bs else false

/-- Unfolding of lexLe on two nonempty lists. -/
theorem lexLe_cons_iff {x y : Nat} {xs ys : List Nat} :
    lexLe (x :: xs) (y :: ys) = true ↔
      x < y ∨ (x = y ∧ lexLe xs ys = true) := by
  simp only [lexLe]
  split_ifs with h1 h2
  · simp [h1]
  · simp [h1, h2]
  · simp [h1, h2]

/-- lexLe is total. -/
theorem lexLe_total : ∀ xs ys : List Nat,
    lexLe xs ys = true ∨ lexLe ys xs = true
  | [], _ => Or.inl rfl
  | _ :: _, [] => Or.inr rfl
  | x :: xs, y :: ys => by
    rcases Nat.lt_trichotomy x y with h | h | h
    · exact Or.inl (lexLe_cons_iff.mpr (Or.inl h))
    · rcases lexLe_total xs ys with h2 | h2
      · exact Or.inl (lexLe_cons_iff.mpr (Or.inr ⟨h, h2⟩))
      · exact Or.inr (lexLe_cons_iff.mpr (Or.inr ⟨h.symm, h2⟩))
    · exact Or.inr (lexLe_cons_iff.mpr (Or.inl h))

/-- lexLe is transitive. -/
theorem lexLe_trans : ∀ {xs ys zs : List Nat},
    lexLe xs ys = true → lexLe ys zs = true → lexLe xs zs = true
  | [], _, _, _, _ => rfl
  | _ :: _, [], _, h1, _ => by simp [lexLe] at h1
  | _ :: _, _ :: _, [], _, h2 => by simp [lexLe] at h2
  | x :: xs, y :: ys, z :: zs, h1, h2 => by
    rcases lexLe_cons_iff.mp h1 with hxy | ⟨hxy, hrec1⟩
    · rcases lexLe_cons_iff.mp h2 with hyz | ⟨hyz, hrec2⟩
      · exact lexLe_cons_iff.mpr (Or.inl (Nat.lt_trans hxy hyz))
      · exact lexLe_cons_iff.mpr (Or.inl (by omega))
    · rcases lexLe_cons_iff.mp h2 with hyz | ⟨hyz, hrec2⟩
      · exact lexLe_cons_iff.mpr (Or.inl (by omega))
      · exact lexLe_cons_iff.mpr (Or.inr ⟨hxy.trans hyz, lexLe_trans hrec1 hrec2⟩)

/-- lexLe is antisymmetric. -/
theorem lexLe_antisymm : ∀ {xs ys : List Nat},
    lexLe xs ys = true → lexLe ys xs = true → xs = ys
  | [], [], _, _ => rfl
  | [], _ :: _, _, h2 => by simp [lexLe] at h2
  | _ :: _, [], h1, _ => by simp [lexLe] at h1
  | x :: xs, y :: ys, h1, h2 => by
    rcases lexLe_cons_iff.mp h1 with hxy | ⟨hxy, hrec1⟩
    · rcases lexLe_cons_iff.mp h2 with hyx | ⟨hyx, hrec2⟩
      · exact absurd hyx (Nat.lt_asymm hxy)
      · exact absurd hxy (by omega)
    · rcases lexLe_cons_iff.mp h2 with hyx | ⟨hyx, hrec2⟩
      · exact absurd hyx (by omega)
      · rw [hxy, lexLe_antisymm hrec1 hrec2]

/-- The character values of a string. -/
def strVals (s : String) : List Nat := s.data.map fun c => c.val.toNat

/-- Lexicographic less-or-equal on strings via character values. -/
def strLe (a b : String) : Bool := lexLe (strVals a) (strVals b)

/-- strVals determines the string. -/
theorem strVals_inj {a b : String} (h : strVals a = strVals b) : a = b := by
  have hd : a.data = b.data :=
    List.map_injective_iff.mpr (fun c d hcd => Char.ext (UInt32.ext hcd)) h
  cases a
  cases b
  exact congrArg String.mk hd

/-- strLe is antisymmetric. -/
theorem strLe_antisymm {a b : String} (h1 : strLe a b = true)
    (h2 : strLe b a = true) : a = b :=
  strVals_inj (lexLe_antisymm h1 h2)

/-- The comparator of the final sort: ascending exported name, mirroring
processed_methods.sort_by on c_name. -/
def cNameLe (a b : CppAndFfiMethod) : Prop := strLe a.c_name b.c_name = true

instance : DecidableRel cNameLe := fun a b =>
  inferInstanceAs (Decidable (strLe a.c_name b.c_name = true))

instance : IsTotal CppAndFfiMethod cNameLe :=
  ⟨fun a b => lexLe_total (strVals a.c_name) (strVals b.c_name)⟩

instance : IsTrans CppAndFfiMethod cNameLe :=
  ⟨fun _ _ _ h1 h2 => lexLe_trans h1 h2⟩

/-- The string order used for the include file sort of run. -/
def strLeP (a b : String) : Prop := strLe a b = true

instance : DecidableRel strLeP := fun a b =>
  inferInstanceAs (Decidable (strLe a b = true))

instance : IsTotal String strLeP :=
  ⟨fun a b => lexLe_total (strVals a) (strVals b)⟩

instance : IsTrans String strLeP :=
  ⟨fun _ _ _ h1 h2 => lexLe_trans h1 h2⟩

/-- The final stable ascending sort of one unit on the exported name. -/
def sortByCName (l : List CppAndFfiMethod) : List CppAndFfiMethod :=
  l.insertionSort cNameLe

/-- CppFfiGenerator::process_methods for one compilation unit, from a given
group iteration order: phase two plus the final sort.  The iteration order of
the groups is a parameter because the source iterates a HashMap, whose order
is unspecified. -/
def processGroups (env : GenEnv)
    (gs : List (String × List CppMethodWithFfiSignature)) :
    List LogEntry × Except GenErr (List CppAndFfiMethod) :=
  let r := resolveGroups env gs
  (r.1, r.2.map sortByCName)

/-- CppFfiGenerator::process_methods: the status line, phase one over the
input methods, then group resolution in the first-insertion group order and
the final sort.  Running the groups in any other order models another HashMap
iteration order (see processGroups). -/
def process_methods (env : GenEnv) (include_file_base_name : String)
    (ovr : Option CppTypeAllocationPlace) (ms : List CppMethod) :
    List LogEntry × Except GenErr (List CppAndFfiMethod) :=
  let c := collectMethods env include_file_base_name ovr ms []
  match c.2 with
  | .error e =>
    (LogEntry.status ("Generating C++ FFI methods for header: " ++
      include_file_base_name) :: c.1, .error e)
  | .ok gs =>
    let r := processGroups env gs
    (LogEntry.status ("Generating C++ FFI methods for header: " ++
      include_file_base_name) :: (c.1 ++ r.1), r.2)

/-- The create_function closure of generate_slot_wrappers: a public virtual
member of the synthesized wrapper class living in the synthetic slots unit,
with all remaining fields defaulted exactly as in the source. -/
def slotClassMethod (class_name : String) (kind : CppMethodKind)
    (name : String) (is_slot : Bool) (arguments : List CppFunctionArgument) :
    CppMethod :=
  { name := name
    class_membership := some
      { class_type := .mk class_name none
        is_virtual := true
        is_pure_virtual := false
        is_const := false
        is_static := false
        visibility := .Public
        is_signal := false
        is_slot := is_slot
        kind := kind
        fake := none }
    operator := none
    return_type := CppType.void
    arguments := arguments
    arguments_before_omitting := none
    allows_variadic_arguments := false
    include_file := "slots"
    origin_location := none
    template_arguments := none
    template_arguments_values := none
    declaration_code := none
    doc := none
    inheritance_chain := []
    is_ffi_whitelisted := false
    is_unsafe_static_cast := false
    is_direct_static_cast := false
    is_fake_inherited_method := false }

/-- Modelled from the spec: cpp_data::create_cast_method is not under the
analysed sources.  Per its call site and the safe-upcast description of the
spec it builds a free function with the given name, one pointer argument of
the source type, the target type as return type, the static-cast flags as
given, placed in the given include file. -/
def create_cast_method (name : String) (cast_from cast_to : CppType)
    ( is_unsafe is_direct : Bool) (include_file : String) : CppMethod :=
  { name := name
    class_membership := none
    operator := none
    return_type := cast_to
    arguments := [⟨"ptr", cast_from, false⟩]
    arguments_before_omitting := none
    allows_variadic_arguments := false
    include_file := include_file
    origin_location := none
    template_arguments := none
    template_arguments_values := none
    declaration_code := none
    doc := none
    inheritance_chain := []
    is_ffi_whitelisted := false
    is_unsafe_static_cast := is_unsafe
    is_direct_static_cast := is_direct
    is_fake_inherited_method := false }

/-- The void pointer type used throughout generate_slot_wrappers. -/
def voidPtr : CppType := .mk .Void .ptr false false

/-- The joined caption of one signal argument tuple: the literal no_args for
the empty tuple, otherwise the per-type full captions joined by underscores. -/
def joinedArgsCaption (args_captions : List String) : String :=
  if args_captions.isEmpty then "no_args"
  else
    let sep : String := "_"
    String.intercalate sep args_captions

/-- common::utils::MapIfOk::map_if_ok: collect the image of a fallible
function over a list, aborting on the first error. -/
def mapExcept {α β : Type} (f : α → Except GenErr β) :
    List α → Except GenErr (List β)
  | [] => .ok []
  | a :: as =>
    match f a with
    | .error e => .error e
    | .ok b =>
      match mapExcept f as with
      | .error e => .error e
      | .ok bs => .ok (b :: bs)

/-- The five members synthesized for one wrapper class, given the class name,
its function pointer type and the tuple: default constructor, destructor,
set(callback, context), the custom_slot dispatch method, and the upcast to
QObject, in push order. -/
def fiveSlotMembers (class_name : String)
    (function_type : CppFunctionPointerType) (types : List CppType) :
    List CppMethod :=
  [slotClassMethod class_name .Constructor class_name false [],
   slotClassMethod class_name .Destructor ("~" ++ class_name) false [],
   slotClassMethod class_name .Regular "set" false
     [⟨"func", .mk (.FunctionPointer function_type) .none false false, false⟩,
      ⟨"data", voidPtr, false⟩],
   slotClassMethod class_name .Regular "custom_slot" true
     (types.enum.map fun p => ⟨"arg" ++ toString p.1, p.2, false⟩),
   create_cast_method "static_cast"
     (.mk (.Class (.mk class_name none)) .ptr false false)
     (.mk (.Class (.mk "QObject" none)) .ptr false false) false true "slots"]

/-- The body of one iteration of the signal-tuple loop of
generate_slot_wrappers: the five synthesized members in push order, together
with the recorded QtSlotWrapper descriptor. -/
def slotDataForTuple (env : GenEnv) (types : List CppType) :
    Except GenErr (List CppMethod × QtSlotWrapper) :=
  match mapExcept env.to_cpp_ffi_type types with
  | .error e => .error e
  | .ok ffi_types =>
    match mapExcept env.type_caption_full types with
    | .error e => .error e
    | .ok args_captions =>
      let class_name := env.cpp_ffi_lib_name ++ "_SlotWrapper_" ++
        joinedArgsCaption args_captions
      let function_type : CppFunctionPointerType :=
        .mk CppType.void
          (CppTypeList.ofList (voidPtr :: ffi_types.map fun t => t.ffi_type))
          false
      let members := fiveSlotMembers class_name function_type types
      match env.receiver_id (slotClassMethod class_name .Regular "custom_slot"
          true (types.enum.map fun p => ⟨"arg" ++ toString p.1, p.2, false⟩)) with
      | .error e => .error e
      | .ok rid =>
        .ok (members, ⟨class_name, ffi_types, function_type, rid⟩)

/-- The whole signal-tuple loop: the synthesized methods of every tuple
concatenated in order, and one wrapper descriptor per tuple in order. -/
def slotData (env : GenEnv) :
    List (List CppType) → Except GenErr (List CppMethod × List QtSlotWrapper)
  | [] => .ok ([], [])
  | types :: rest =>
    match slotDataForTuple env types with
    | .error e => .error e
    | .ok (ms, w) =>
      match slotData env rest with
      | .error e => .error e
      | .ok (ms2, ws) => .ok (ms ++ ms2, w :: ws)

/-- CppFfiGenerator::generate_slot_wrappers: nothing (and no error) when no
signal argument tuples were observed; otherwise the synthesized methods of
all tuples are fed through process_methods with allocation forced to Heap,
and the slots header is returned unconditionally. -/
def generate_slot_wrappers (env : GenEnv) :
    List LogEntry × Except GenErr (Option CppFfiHeaderData) :=
  if env.signal_argument_types.isEmpty then ([], .ok none)
  else
    match slotData env env.signal_argument_types with
    | .error e => ([], .error e)
    | .ok (ms, ws) =>
      let r := process_methods env "slots" (some CppTypeAllocationPlace.Heap) ms
      match r.2 with
      | .error e => (r.1, .error e)
      | .ok processed =>
        (r.1, .ok (some ⟨"slots", processed, ws⟩))

/-- The include file base name: the include file name truncated at its first
dot, as computed at the top of the per-unit loop of run. -/
def includeFileBaseName (include_file : String) : String :=
  String.mk (include_file.data.takeWhile fun c => c ≠ Char.ofNat 46)

/-- The sorted include file list of run: the include file set is collected
and sorted; the set is modelled by deduplicating the listed elements before
the sort, so that the result does not depend on the listing order. -/
def sortedIncludeFiles (files : List String) : List String :=
  (files.dedup).insertionSort strLeP

/-- The per-unit loop of run: process every include file in sorted order,
pushing a header exactly when the processed method list is nonempty. -/
def runUnits (env : GenEnv) :
    List String → List LogEntry × Except GenErr (List CppFfiHeaderData)
  | [] => ([], .ok [])
  | include_file :: rest =>
    let base := includeFileBaseName include_file
    let r := process_methods env base none
      (env.methods.filter fun m => m.include_file = include_file)
    match r.2 with
    | .error e => (r.1, .error e)
    | .ok ms =>
      let r2 := runUnits env rest
      if ms.isEmpty then (r.1 ++ r2.1, r2.2)
      else
        (r.1 ++ r2.1,
          r2.2.map fun hs => ⟨base, ms, []⟩ :: hs)

/-- cpp_ffi_generator::run: list and sort the include files, process each
unit, append the slot-wrapper header when present, and fail with the fixed
message when no header at all was generated. -/
def run (env : GenEnv) :
    List LogEntry × Except GenErr (List CppFfiHeaderData) :=
  match env.all_include_files with
  | .error e => ([], .error e)
  | .ok files =>
    let ru := runUnits env (sortedIncludeFiles files)
    match ru.2 with
    | .error e => (ru.1, .error e)
    | .ok c_headers =>
      let gw := generate_slot_wrappers env
      match gw.2 with
      | .error e => (ru.1 ++ gw.1, .error e)
      | .ok head =>
        let c_headers2 := c_headers ++ (head.map fun h => [h]).getD []
        if c_headers2.isEmpty then
          (ru.1 ++ gw.1, .error ["No FFI headers generated"])
        else (ru.1 ++ gw.1, .ok c_headers2)

/-- The first const qualifier of a type. -/
def CppType.is_const : CppType → Bool
  | .mk _ _ c _ => c

/-- Modelled from the spec: the collision-grouping base name derived by
cpp_ffi_data::c_base_name, which is not under the analysed sources.  Per the
spec the base name is the class prefix (for a free function the call site
passes the include file base name as the scope instead), then the operator
token for operators or the constructor/destructor tag, otherwise the method
name. -/
def specCBaseName (m : CppMethod) (include_file_base_name : String) : String :=
  let scope :=
    match m.class_membership with
    | some mem => mem.class_type.name
    | none => include_file_base_name
  let tail :=
    match m.class_membership.map fun mem => mem.kind with
    | some CppMethodKind.Constructor => "constructor"
    | some CppMethodKind.Destructor => "destructor"
    | _ =>
      match m.operator with
      | some op => "operator_" ++ op
      | none => m.name
  scope ++ "_" ++ tail

/-- Modelled from the spec: the least verbose per-type caption (the bare
base-type token), used by the first caption strategy. -/
def specTypeCaptionShort (t : CppType) : String :=
  match t.base with
  | .Void => "void"
  | .BuiltInNumeric n => n
  | .TemplateParameter _ _ => "tparam"
  | .Class b => b.name
  | .FunctionPointer _ => "func"

/-- Modelled from the spec: the full per-type caption, additionally showing
the indirection, used by the second caption strategy and by
TypeCaptionStrategy::Full in the slot synthesizer. -/
def specTypeCaptionFull (t : CppType) : String :=
  specTypeCaptionShort t ++
    (match t.indirection with
     | .none => ""
     | .ptr => "_ptr"
     | .ref => "_ref")

/-- Modelled from the spec: the most verbose per-type caption, fully
qualified with indirection and const. -/
def specTypeCaptionFullConst (t : CppType) : String :=
  (if t.is_const then "const_" else "") ++ specTypeCaptionFull t

/-- Modelled from the spec: CppFfiFunctionSignature::caption under one method
caption strategy: the per-argument captions at the verbosity of the strategy,
joined by underscores (empty for a method without arguments). -/
def specCaption (sig : CppFfiFunctionSignature) (s : MethodCaptionStrategy) :
    String :=
  let sep : String := "_"
  String.intercalate sep
    (sig.arguments.map fun a =>
      match s with
      | .argsShort => specTypeCaptionShort a.ffi_type
      | .argsFull => specTypeCaptionFull a.ffi_type
      | .constAndArgsFull => specTypeCaptionFullConst a.ffi_type)

/-- A baseline concrete environment used by the concrete counterexamples and
witnesses: no methods, no signal tuples, no filters, and every external
collaborator instantiated with its spec-modelled concrete form
(to_ffi_signature translates every argument and the return type one by one,
c_base_name and the captions follow the definitions above). -/
def baseEnv : GenEnv :=
  { methods := []
    signal_argument_types := []
    all_include_files := .ok []
    has_pure_virtual_methods := fun _ => false
    cpp_ffi_lib_name := "mylib"
    filters := []
    all_involved_types := fun m =>
      (m.arguments.map fun a => a.argument_type) ++ [m.return_type]
    is_or_contains_template_parameter := fun b =>
      match b with
      | .TemplateParameter _ _ => true
      | _ => false
    to_ffi_signature := fun m ovr =>
      .ok (ovr.getD CppTypeAllocationPlace.Stack,
        ⟨m.arguments.map fun a => ⟨a.argument_type⟩, ⟨m.return_type⟩⟩)
    c_base_name := fun m _ ifbn => .ok (specCBaseName m ifbn)
    caption := fun sig s => .ok (specCaption sig s)
    type_caption_full := fun t => .ok (specTypeCaptionFull t)
    to_cpp_ffi_type := fun t => .ok ⟨t⟩
    receiver_id := fun m => .ok ("recv_" ++ m.name)
    short_text := fun m => m.class_name_or_empty ++ "::" ++ m.name }

/-- A plain public non-virtual member method of a class, used to build the
concrete inputs of the counterexamples and witnesses. -/
def memberMethod (cls name : String) (args : List CppType)
    (include_file : String) : CppMethod :=
  { name := name
    class_membership := some
      { class_type := .mk cls none
        is_virtual := false
        is_pure_virtual := false
        is_const := false
        is_static := false
        visibility := .Public
        is_signal := false
        is_slot := false
        kind := .Regular
        fake := none }
    operator := none
    return_type := CppType.void
    arguments := args.enum.map fun p => ⟨"arg" ++ toString p.1, p.2, false⟩
    arguments_before_omitting := none
    allows_variadic_arguments := false
    include_file := include_file
    origin_location := none
    template_arguments := none
    template_arguments_values := none
    declaration_code := none
    doc := none
    inheritance_chain := []
    is_ffi_whitelisted := false
    is_unsafe_static_cast := false
    is_direct_static_cast := false
    is_fake_inherited_method := false }

/-- The int primitive type. -/
def tInt : CppType := .mk (.BuiltInNumeric "int") .none false false

/-- The double primitive type. -/
def tDouble : CppType := .mk (.BuiltInNumeric "double") .none false false

/-- Overloaded method A::foo(int) of unit a.h. -/
def mFooInt : CppMethod := memberMethod "A" "foo" [tInt] "a.h"

/-- Overloaded method A::foo(double) of unit a.h. -/
def mFooDouble : CppMethod := memberMethod "A" "foo" [tDouble] "a.h"

/-- Method A::foo_int() of unit a.h, whose base name equals the base name of
the foo group extended by the caption of A::foo(int). -/
def mFooIntName : CppMethod := memberMethod "A" "foo_int" [] "a.h"

/-- The concrete input of the name-clash counterexamples: a class A with the
overloads foo(int) and foo(double) and a further method foo_int(), all in one
compilation unit. -/
def envClash : GenEnv :=
  { baseEnv with
    methods := [mFooInt, mFooDouble, mFooIntName]
    all_include_files := .ok ["a.h"] }

/-- The name committed for one member from the group key and its caption: the
bare key for an empty caption, otherwise key, underscore, caption. -/
def nameWith (key c : String) : String :=
  if c = "" then key else key ++ "_" ++ c

/-- The captions of a collision group under one strategy, all computed, in
member order. -/
def captionsOf (env : GenEnv) (s : MethodCaptionStrategy)
    (vs : List CppMethodWithFfiSignature) : Except GenErr (List String) :=
  mapExcept (fun v => env.caption v.c_signature s) vs

/-- A strategy disambiguates a group when every caption is computed and the
captions are pairwise distinct. -/
def distinctCaptions (env : GenEnv) (s : MethodCaptionStrategy)
    (vs : List CppMethodWithFfiSignature) : Prop :=
  ∃ cs, captionsOf env s vs = .ok cs ∧ cs.Nodup

/-- The names committed to a whole group under one strategy: every member
paired with nameWith of its caption. -/
def committedNames (env : GenEnv) (key : String) (s : MethodCaptionStrategy)
    (vs : List CppMethodWithFfiSignature)
    (entries : List CppAndFfiMethod) : Prop :=
  ∃ cs, captionsOf env s vs = .ok cs ∧
    entries = List.zipWith (fun v c => mkCppAndFfiMethod v (nameWith key c)) vs cs

/-- The declarative description of the resolution of one collision group, as
the spec states it: a singleton keeps the base name unchanged; a larger group
is committed under the first strategy of MethodCaptionStrategy.all whose
captions are pairwise distinct over the group. -/
def groupResolutionSpec (env : GenEnv) (key : String)
    (vs : List CppMethodWithFfiSignature)
    (entries : List CppAndFfiMethod) : Prop :=
  (∃ v, vs = [v] ∧ entries = [mkCppAndFfiMethod v key]) ∨
  (1 < vs.length ∧
    ∃ i : Fin MethodCaptionStrategy.all.length,
      distinctCaptions env (MethodCaptionStrategy.all.get i) vs ∧
      (∀ j (hj : j < i.1),
        ¬ distinctCaptions env
          (MethodCaptionStrategy.all.get ⟨j, lt_trans hj i.2⟩) vs) ∧
      committedNames env key (MethodCaptionStrategy.all.get i) vs entries)

/-- A nonempty string has positive length. -/
theorem length_pos_of_ne_empty {c : String} (h : c ≠ "") : 0 < c.length := by
  rcases c with ⟨data⟩
  cases data with
  | nil => exact absurd rfl h
  | cons a as => simp [String.length]

/-- nameWith with a fixed key is injective in the caption. -/
theorem nameWith_inj (key : String) : Function.Injective (nameWith key) := by
  intro c1 c2 h
  unfold nameWith at h
  by_cases h1 : c1 = "" <;> by_cases h2 : c2 = ""
  · exact h1.trans h2.symm
  · exfalso
    rw [if_pos h1, if_neg h2] at h
    have hlen := congrArg String.length h
    simp only [String.length_append] at hlen
    have := length_pos_of_ne_empty h2
    omega
  · exfalso
    rw [if_neg h1, if_pos h2] at h
    have hlen := congrArg String.length h
    simp only [String.length_append] at hlen
    have := length_pos_of_ne_empty h1
    omega
  · rw [if_neg h1, if_neg h2] at h
    have hd := congrArg String.data h
    simp only [String.data_append, List.append_assoc] at hd
    have hd2 : c1.data = c2.data := List.append_cancel_left
      (List.append_cancel_left hd)
    rcases c1 with ⟨d1⟩
    rcases c2 with ⟨d2⟩
    exact congrArg String.mk hd2

/-- mapExcept preserves length. -/
theorem mapExcept_ok_length {α β : Type} {f : α → Except GenErr β} :
    ∀ {as : List α} {bs : List β}, mapExcept f as = .ok bs →
      bs.length = as.length
  | [], _, h => by
    simp only [mapExcept] at h
    cases h
    rfl
  | a :: as, bs, h => by
    cases hf : f a with
    | error e => simp [mapExcept, hf] at h
    | ok b =>
      cases hr : mapExcept f as with
      | error e => simp [mapExcept, hf, hr] at h
      | ok bs2 =>
        simp only [mapExcept, hf, hr] at h
        cases h
        simp [mapExcept_ok_length hr]

/-- Membership in a zipWith image. -/
theorem mem_zipWith {α β γ : Type} {f : α → β → γ} :
    ∀ {as : List α} {bs : List β} {c : γ}, c ∈ List.zipWith f as bs →
      ∃ a ∈ as, ∃ b ∈ bs, c = f a b
  | a :: as, b :: bs, c, h => by
    rcases List.mem_cons.mp h with h | h
    · exact ⟨a, List.mem_cons_self a as, b, List.mem_cons_self b bs, h⟩
    · rcases mem_zipWith h with ⟨a2, ha, b2, hb, hc⟩
      exact ⟨a2, List.mem_cons_of_mem a ha, b2, List.mem_cons_of_mem b hb, hc⟩

/-- commitStrategy succeeds exactly by computing every caption and forming
the nameWith names in order. -/
theorem commitStrategy_ok {env : GenEnv} {key : String}
    {s : MethodCaptionStrategy} :
    ∀ {vs : List CppMethodWithFfiSignature} {es : List CppAndFfiMethod},
      commitStrategy env key s vs = .ok es →
      ∃ cs, captionsOf env s vs = .ok cs ∧
        es = List.zipWith (fun v c => mkCppAndFfiMethod v (nameWith key c)) vs cs
  | [], es, h => by
    simp only [commitStrategy] at h
    cases h
    exact ⟨[], rfl, rfl⟩
  | v :: vs, es, h => by
    cases hc : env.caption v.c_signature s with
    | error e => simp [commitStrategy, hc] at h
    | ok c =>
      cases hr : commitStrategy env key s vs with
      | error e => simp [commitStrategy, hc, hr] at h
      | ok es2 =>
        simp only [commitStrategy, hc, hr] at h
        cases h
        rcases commitStrategy_ok hr with ⟨cs, hcs, hes⟩
        refine ⟨c :: cs, ?_, ?_⟩
        · simp only [captionsOf, mapExcept, hc]
          simp only [captionsOf] at hcs
          simp [hcs]
        · simp [hes, nameWith]

/-- A succeeding strategy check yields all captions, none of them already
seen, and pairwise distinct. -/
theorem checkStrategy_true {env : GenEnv} {s : MethodCaptionStrategy} :
    ∀ {vs : List CppMethodWithFfiSignature} {seen : List String},
      checkStrategy env s vs seen = .ok true →
      ∃ cs, captionsOf env s vs = .ok cs ∧ cs.Nodup ∧
        ∀ c ∈ cs, c ∉ seen
  | [], _, _ => ⟨[], rfl, List.nodup_nil, by simp⟩
  | v :: vs, seen, h => by
    cases hc : env.caption v.c_signature s with
    | error e => simp [checkStrategy, hc] at h
    | ok c =>
      by_cases hmem : c ∈ seen
      · simp [checkStrategy, hc, hmem] at h
      · simp only [checkStrategy, hc] at h
        rw [if_neg (by simpa using hmem)] at h
        rcases checkStrategy_true h with ⟨cs, hcs, hnd, hseen⟩
        refine ⟨c :: cs, ?_, ?_, ?_⟩
        · simp only [captionsOf, mapExcept, hc]
          simp only [captionsOf] at hcs
          rw [hcs]
        · exact List.nodup_cons.mpr
            ⟨fun hin => hseen c hin (List.mem_cons_self c seen), hnd⟩
        · intro c2 hc2
          rcases List.mem_cons.mp hc2 with rfl | hc2
          · exact hmem
          · exact fun hin =>
              hseen c2 hc2 (List.mem_cons_of_mem c hin)

/-- A failing strategy check refutes every caption assignment that is nodup
and avoids the seen set. -/
theorem checkStrategy_false {env : GenEnv} {s : MethodCaptionStrategy} :
    ∀ {vs : List CppMethodWithFfiSignature} {seen : List String},
      checkStrategy env s vs seen = .ok false →
      ∀ cs, captionsOf env s vs = .ok cs →
        ¬ (cs.Nodup ∧ ∀ c ∈ cs, c ∉ seen)
  | [], seen, h => by simp [checkStrategy] at h
  | v :: vs, seen, h => by
    intro cs hcs hcl
    cases hc : env.caption v.c_signature s with
    | error e => simp [captionsOf, mapExcept, hc] at hcs
    | ok c =>
      cases hr : mapExcept (fun v => env.caption v.c_signature s) vs with
      | error e => simp [captionsOf, mapExcept, hc, hr] at hcs
      | ok cs2 =>
        simp only [captionsOf, mapExcept, hc, hr] at hcs
        cases hcs
        by_cases hmem : c ∈ seen
        · exact hcl.2 c (List.mem_cons_self c cs2) hmem
        · simp only [checkStrategy, hc] at h
          rw [if_neg (by simpa using hmem)] at h
          refine checkStrategy_false h cs2 hr ⟨(List.nodup_cons.mp hcl.1).2, ?_⟩
          intro c2 hc2 hin
          rcases List.mem_cons.mp hin with rfl | hin2
          · exact (List.nodup_cons.mp hcl.1).1 hc2
          · exact hcl.2 c2 (List.mem_cons_of_mem c hc2) hin2

/-- A strategy check never errors when every caption is computable. -/
theorem checkStrategy_no_error {env : GenEnv} {s : MethodCaptionStrategy} :
    ∀ {vs : List CppMethodWithFfiSignature} {seen : List String} {cs},
      captionsOf env s vs = .ok cs →
      checkStrategy env s vs seen = .ok true ∨
        checkStrategy env s vs seen = .ok false
  | [], seen, cs, _ => Or.inl rfl
  | v :: vs, seen, cs, hcs => by
    cases hc : env.caption v.c_signature s with
    | error e => simp [captionsOf, mapExcept, hc] at hcs
    | ok c =>
      cases hr : mapExcept (fun v => env.caption v.c_signature s) vs with
      | error e => simp [captionsOf, mapExcept, hc, hr] at hcs
      | ok cs2 =>
        simp only [checkStrategy, hc]
        by_cases hmem : seen.contains c
        · rw [if_pos hmem]
          exact Or.inr rfl
        · rw [if_neg hmem]
          exact @checkStrategy_no_error env s vs (c :: seen) cs2 hr

/-- The strategy found by findStrategy is the first accepted one: it sits at
an index of the strategy list, its check succeeds, and the check of every
earlier strategy returns false. -/
theorem findStrategy_some {env : GenEnv} {vs : List CppMethodWithFfiSignature} :
    ∀ {ss : List MethodCaptionStrategy} {s : MethodCaptionStrategy},
      findStrategy env vs ss = .ok (some s) →
      ∃ i, ∃ h : i < ss.length, ss.get ⟨i, h⟩ = s ∧
        checkStrategy env s vs [] = .ok true ∧
        ∀ j (hj : j < i),
          checkStrategy env (ss.get ⟨j, Nat.lt_trans hj h⟩) vs [] = .ok false
  | [], s, h => by simp [findStrategy] at h
  | s0 :: rest, s, h => by
    cases hc : checkStrategy env s0 vs [] with
    | error e => simp [findStrategy, hc] at h
    | ok b =>
      cases b with
      | true =>
        simp only [findStrategy, hc] at h
        cases h
        exact ⟨0, Nat.succ_pos _, rfl, hc, fun j hj => absurd hj (Nat.not_lt_zero j)⟩
      | false =>
        simp only [findStrategy, hc] at h
        rcases findStrategy_some h with ⟨i, hlt, hget, htrue, hprev⟩
        refine ⟨i + 1, Nat.succ_lt_succ hlt, hget, htrue, ?_⟩
        intro j hj
        cases j with
        | zero => exact hc
        | succ j2 => exact hprev j2 (Nat.lt_of_succ_lt_succ hj)

/-- A successfully resolved group satisfies the declarative resolution
specification. -/
theorem resolveGroup_ok_spec {env : GenEnv} {key : String}
    {vs : List CppMethodWithFfiSignature} {entries : List CppAndFfiMethod}
    (hne : vs ≠ [])
    (h : (resolveGroup env key vs).2 = .ok entries) :
    groupResolutionSpec env key vs entries := by
  match vs, hne with
  | [v], _ =>
    simp only [resolveGroup] at h
    cases h
    exact Or.inl ⟨v, rfl, rfl⟩
  | v1 :: v2 :: rest, _ =>
    cases hf : findStrategy env (v1 :: v2 :: rest) MethodCaptionStrategy.all with
    | error e => simp [resolveGroup, hf] at h
    | ok o =>
      cases o with
      | none => simp [resolveGroup, hf] at h
      | some s =>
        simp only [resolveGroup, hf] at h
        rcases findStrategy_some hf with ⟨i, hlt, hget, htrue, hprev⟩
        rcases checkStrategy_true htrue with ⟨cs, hcs, hnd, _⟩
        rcases commitStrategy_ok h with ⟨cs2, hcs2, hes⟩
        refine Or.inr ⟨by simp, ⟨i, hlt⟩, ?_, ?_, ?_⟩
        · exact hget ▸ ⟨cs, hcs, hnd⟩
        · intro j hj hdis
          rcases hdis with ⟨csj, hcsj, hndj⟩
          exact checkStrategy_false (hprev j hj) csj hcsj
            ⟨hndj, fun c _ => List.not_mem_nil c⟩
        · exact hget ▸ ⟨cs2, hcs2, hes⟩

/-- zipWith that ignores its first list is a map of the second when the
lengths agree. -/
theorem zipWith_const_right {α β γ : Type} (g : β → γ) :
    ∀ (as : List α) (bs : List β), as.length = bs.length →
      List.zipWith (fun _ b => g b) as bs = bs.map g
  | [], [], _ => rfl
  | [], _ :: _, h => by cases h
  | _ :: _, [], h => by cases h
  | a :: as, b :: bs, h => by
    simp only [List.zipWith_cons_cons, List.map_cons]
    rw [zipWith_const_right g as bs (by simpa using h)]

/-- The names committed to one group are pairwise distinct. -/
theorem committedNames_nodup {env : GenEnv} {key : String}
    {s : MethodCaptionStrategy} {vs : List CppMethodWithFfiSignature}
    {entries : List CppAndFfiMethod}
    (hdis : distinctCaptions env s vs)
    (hcom : committedNames env key s vs entries) :
    (entries.map fun e => e.c_name).Nodup := by
  rcases hdis with ⟨cs, hcs, hnd⟩
  rcases hcom with ⟨cs2, hcs2, hes⟩
  have hcseq : cs2 = cs := by
    rw [hcs] at hcs2
    cases hcs2
    rfl
  subst hcseq
  subst hes
  have hlen : vs.length = cs2.length :=
    (mapExcept_ok_length hcs).symm
  have hmap : (List.zipWith
      (fun v c => mkCppAndFfiMethod v (nameWith key c)) vs cs2).map
        (fun e => e.c_name) =
      List.zipWith (fun _ c => nameWith key c) vs cs2 := by
    rw [List.map_zipWith]
    rfl
  rw [hmap, zipWith_const_right (nameWith key) vs cs2 hlen]
  exact hnd.map (nameWith_inj key)

/-- Every successfully resolved collision group commits pairwise distinct
exported names to its members. -/
theorem resolveGroup_names_nodup {env : GenEnv} {key : String}
    {vs : List CppMethodWithFfiSignature} {entries : List CppAndFfiMethod}
    (h : (resolveGroup env key vs).2 = .ok entries) :
    (entries.map fun e => e.c_name).Nodup := by
  cases vs with
  | nil =>
    have h0 : (resolveGroup env key ([] : List CppMethodWithFfiSignature)).2 =
        .ok [] := rfl
    rw [h0] at h
    cases h
    simp
  | cons v1 tl =>
    cases tl with
    | nil =>
      simp only [resolveGroup] at h
      cases h
      simp
    | cons v2 rest =>
      rcases resolveGroup_ok_spec (by simp) h with
        ⟨v, heq, _⟩ | ⟨_, i, hdis, _, hcom⟩
      · simp at heq
      · exact committedNames_nodup hdis hcom

/-- Decomposition of a successful multi-group resolution into its per-group
parts, in group iteration order. -/
theorem resolveGroups_ok_parts {env : GenEnv} :
    ∀ {gs : List (String × List CppMethodWithFfiSignature)}
      {l : List CppAndFfiMethod},
      (resolveGroups env gs).2 = .ok l →
      ∃ parts, List.Forall₂
        (fun g p => (resolveGroup env g.1 g.2).2 = .ok p) gs parts ∧
        l = parts.flatten
  | [], l, h => by
    cases h
    exact ⟨[], List.Forall₂.nil, rfl⟩
  | g :: gs, l, h => by
    rcases hg : resolveGroup env g.1 g.2 with ⟨glogs, gr⟩
    cases gr with
    | error e => simp [resolveGroups, hg] at h
    | ok es =>
      simp only [resolveGroups, hg] at h
      cases hr : (resolveGroups env gs).2 with
      | error e => rw [hr] at h; simp [Except.map] at h
      | ok tl =>
        rw [hr] at h
        simp only [Except.map] at h
        cases h
        rcases resolveGroups_ok_parts hr with ⟨parts, hfa, hfl⟩
        exact ⟨es :: parts, List.Forall₂.cons (by rw [hg]) hfa, by simp [hfl]⟩

/-- Every group of a successful multi-group resolution resolves
successfully on its own. -/
theorem resolveGroups_ok_of_mem {env : GenEnv} :
    ∀ {gs : List (String × List CppMethodWithFfiSignature)}
      {l : List CppAndFfiMethod},
      (resolveGroups env gs).2 = .ok l →
      ∀ {g}, g ∈ gs → ∃ es, (resolveGroup env g.1 g.2).2 = .ok es
  | [], _, _, g, hg => absurd hg (List.not_mem_nil g)
  | g0 :: gs, l, h, g, hg => by
    rcases hg0 : resolveGroup env g0.1 g0.2 with ⟨glogs, gr⟩
    cases gr with
    | error e => simp [resolveGroups, hg0] at h
    | ok es =>
      simp only [resolveGroups, hg0] at h
      cases hr : (resolveGroups env gs).2 with
      | error e => rw [hr] at h; simp [Except.map] at h
      | ok tl =>
        rcases List.mem_cons.mp hg with rfl | hgm
        · exact ⟨es, by rw [hg0]⟩
        · exact resolveGroups_ok_of_mem hr hgm

/-- When every group resolves, the whole resolution succeeds. -/
theorem resolveGroups_ok_of_all {env : GenEnv} :
    ∀ {gs : List (String × List CppMethodWithFfiSignature)},
      (∀ g ∈ gs, ∃ es, (resolveGroup env g.1 g.2).2 = .ok es) →
      ∃ l, (resolveGroups env gs).2 = .ok l
  | [], _ => ⟨[], rfl⟩
  | g :: gs, hall => by
    rcases hall g (List.mem_cons_self g gs) with ⟨es, hes⟩
    rcases hg : resolveGroup env g.1 g.2 with ⟨glogs, gr⟩
    rw [hg] at hes
    simp only at hes
    subst hes
    rcases resolveGroups_ok_of_all
      (fun g2 hg2 => hall g2 (List.mem_cons_of_mem g hg2)) with ⟨tl, htl⟩
    refine ⟨es ++ tl, ?_⟩
    simp only [resolveGroups, hg]
    rw [htl]
    simp [Except.map]

/-- The resolved entries of permuted group iteration orders are permutations
of each other. -/
theorem resolveGroups_perm {env : GenEnv}
    {gs1 gs2 : List (String × List CppMethodWithFfiSignature)}
    (hp : gs1.Perm gs2) :
    ∀ {l1 l2 : List CppAndFfiMethod},
      (resolveGroups env gs1).2 = .ok l1 →
      (resolveGroups env gs2).2 = .ok l2 → l1.Perm l2 := by
  induction hp with
  | nil =>
    intro l1 l2 h1 h2
    cases h1
    cases h2
    exact List.Perm.refl _
  | cons x hp2 ih =>
    intro l1 l2 h1 h2
    rcases hx : resolveGroup env x.1 x.2 with ⟨xlogs, xr⟩
    cases xr with
    | error e => simp [resolveGroups, hx] at h1
    | ok es =>
      simp only [resolveGroups, hx] at h1 h2
      cases hr1 : (resolveGroups env _).2 with
      | error e => rw [hr1] at h1; simp [Except.map] at h1
      | ok t1 =>
        cases hr2 : (resolveGroups env _).2 with
        | error e => rw [hr2] at h2; simp [Except.map] at h2
        | ok t2 =>
          rw [hr1] at h1
          rw [hr2] at h2
          simp only [Except.map] at h1 h2
          cases h1
          cases h2
          exact (ih hr1 hr2).append_left es
  | swap x y l =>
    intro l1 l2 h1 h2
    rcases hy : resolveGroup env y.1 y.2 with ⟨ylogs, yr⟩
    cases yr with
    | error e => simp [resolveGroups, hy] at h1
    | ok ey =>
      rcases hx : resolveGroup env x.1 x.2 with ⟨xlogs, xr⟩
      cases xr with
      | error e => simp [resolveGroups, hx, hy, Except.map] at h1
      | ok ex =>
        cases hr : (resolveGroups env l).2 with
        | error e => simp [resolveGroups, hx, hy, hr, Except.map] at h1
        | ok t =>
          simp only [resolveGroups, hx, hy] at h1 h2
          rw [hr] at h1 h2
          simp only [Except.map] at h1 h2
          cases h1
          cases h2
          rw [← List.append_assoc, ← List.append_assoc]
          exact List.perm_append_comm.append_right t
  | trans hp12 hp23 ih12 ih23 =>
    rename_i la lb lc
    intro l1 l2 h1 h2
    have hallmid : ∀ g ∈ lb, ∃ es, (resolveGroup env g.1 g.2).2 = .ok es :=
      fun g hg => resolveGroups_ok_of_mem h1 (hp12.mem_iff.mpr hg)
    rcases resolveGroups_ok_of_all hallmid with ⟨lmid, hmid⟩
    exact (ih12 h1 hmid).trans (ih23 hmid h2)

/-- The final sort is a permutation of its input. -/
theorem sortByCName_perm (l : List CppAndFfiMethod) : (sortByCName l).Perm l :=
  List.perm_insertionSort cNameLe l

/-- The final sort is ascending on exported names. -/
theorem sortByCName_sorted (l : List CppAndFfiMethod) :
    (sortByCName l).Sorted cNameLe :=
  List.sorted_insertionSort cNameLe l

/-- The strict version of the name comparator, paired with distinctness. -/
def cNameLtNe (a b : CppAndFfiMethod) : Prop :=
  cNameLe a b ∧ a.c_name ≠ b.c_name

instance : IsAntisymm CppAndFfiMethod cNameLtNe :=
  ⟨fun a b h1 h2 => absurd (strLe_antisymm h1.1 h2.1) h1.2⟩

/-- Two sorted permutations of each other with pairwise distinct exported
names are equal. -/
theorem sorted_nodup_names_eq {l1 l2 : List CppAndFfiMethod}
    (hp : l1.Perm l2) (hs1 : l1.Sorted cNameLe) (hs2 : l2.Sorted cNameLe)
    (hnd : (l1.map fun e => e.c_name).Nodup) : l1 = l2 := by
  have hnd2 : (l2.map fun e => e.c_name).Nodup :=
    ((hp.map fun e => e.c_name).nodup_iff).mp hnd
  have hpw1 : l1.Pairwise fun a b => a.c_name ≠ b.c_name :=
    List.pairwise_map.mp hnd
  have hpw2 : l2.Pairwise fun a b => a.c_name ≠ b.c_name :=
    List.pairwise_map.mp hnd2
  exact @List.eq_of_perm_of_sorted _ cNameLtNe _ _ _ hp
    (show List.Sorted cNameLtNe l1 from hs1.and hpw1)
    (show List.Sorted cNameLtNe l2 from hs2.and hpw2)

/-- Inversion of a successful process_methods call: phase one produced the
groups, the groups resolved, and the output is the sorted concatenation. -/
theorem process_methods_ok {env : GenEnv} {i : String}
    {o : Option CppTypeAllocationPlace} {ms : List CppMethod}
    {logs : List LogEntry} {out : List CppAndFfiMethod}
    (h : process_methods env i o ms = (logs, .ok out)) :
    ∃ gs l, (collectMethods env i o ms []).2 = .ok gs ∧
      (resolveGroups env gs).2 = .ok l ∧ out = sortByCName l := by
  rcases hc : collectMethods env i o ms [] with ⟨clogs, cr⟩
  cases cr with
  | error e => simp [process_methods, hc] at h
  | ok gs =>
    cases hr : (resolveGroups env gs).2 with
    | error e =>
      simp [process_methods, processGroups, hc, hr, Except.map] at h
    | ok l =>
      simp only [process_methods, processGroups, hc, hr, Except.map] at h
      have h2b := congrArg Prod.snd h
      simp only at h2b
      have h3 : sortByCName l = out := by injection h2b
      exact ⟨gs, l, rfl, hr, h3.symm⟩

/-- All exported names of a run output, in output order. -/
def allCNames (hs : List CppFfiHeaderData) : List String :=
  (hs.map fun h => h.methods.map fun e => e.c_name).flatten

/-- The exported names of a successful run, none for a failed run. -/
def runNames (env : GenEnv) : Option (List String) :=
  match (run env).2 with
  | .ok hs => some (allCNames hs)
  | .error _ => none

/-- When every filter before f accepts and f rejects, the filter loop
rejects. -/
theorem runFilters_split_false {m : CppMethod}
    {f : CppMethod → Except GenErr Bool}
    {fs2 : List (CppMethod → Except GenErr Bool)} :
    ∀ {fs1 : List (CppMethod → Except GenErr Bool)},
      (∀ f2 ∈ fs1, f2 m = .ok true) → f m = .ok false →
      runFilters m (fs1 ++ f :: fs2) = .ok false
  | [], _, hf => by simp [runFilters, hf]
  | f1 :: fs1, hpass, hf => by
    have h1 := hpass f1 (List.mem_cons_self f1 fs1)
    simp only [List.cons_append, runFilters, h1]
    exact runFilters_split_false
      (fun f2 h2 => hpass f2 (List.mem_cons_of_mem f1 h2)) hf

/-- When every filter before f accepts and f itself errors, the filter loop
errors with the chained message. -/
theorem runFilters_split_error {m : CppMethod}
    {f : CppMethod → Except GenErr Bool} {err : GenErr}
    {fs2 : List (CppMethod → Except GenErr Bool)} :
    ∀ {fs1 : List (CppMethod → Except GenErr Bool)},
      (∀ f2 ∈ fs1, f2 m = .ok true) → f m = .error err →
      runFilters m (fs1 ++ f :: fs2) =
        .error (List.cons "cpp_ffi_generator_filter failed" err)
  | [], _, hf => by simp [runFilters, hf]
  | f1 :: fs1, hpass, hf => by
    have h1 := hpass f1 (List.mem_cons_self f1 fs1)
    simp only [List.cons_append, runFilters, h1]
    exact runFilters_split_error
      (fun f2 h2 => hpass f2 (List.mem_cons_of_mem f1 h2)) hf

/-- A rejecting filter loop makes the whole eligibility check reject. -/
theorem should_process_of_filter_false {env : GenEnv} {m : CppMethod}
    (hnf : m.is_fake_inherited_method = false)
    (hrf : runFilters m env.filters = .ok false) :
    should_process_method env m = .ok false := by
  simp [should_process_method, hnf, hrf]

/-- An erroring filter loop makes the whole eligibility check error. -/
theorem should_process_of_filter_error {env : GenEnv} {m : CppMethod}
    {err : GenErr} (hnf : m.is_fake_inherited_method = false)
    (hrf : runFilters m env.filters = .error err) :
    should_process_method env m = .error err := by
  simp [should_process_method, hnf, hrf]

/-- A method the eligibility check rejects leaves phase one untouched. -/
theorem collectMethods_skip {env : GenEnv} {i : String}
    {o : Option CppTypeAllocationPlace} {m : CppMethod}
    (hm : should_process_method env m = .ok false) :
    ∀ (xs ys : List CppMethod) acc,
      collectMethods env i o (xs ++ m :: ys) acc =
      collectMethods env i o (xs ++ ys) acc
  | [], ys, acc => by
    simp only [List.nil_append, collectMethods, hm]
  | x :: xs, ys, acc => by
    simp only [List.cons_append, collectMethods]
    cases hx : should_process_method env x with
    | error e => rfl
    | ok b =>
      cases b with
      | false =>
        dsimp only
        exact collectMethods_skip hm xs ys acc
      | true =>
        dsimp only
        cases hsig : env.to_ffi_signature x o with
        | error msg =>
          dsimp only
          simp only [List.append_eq]
          rw [collectMethods_skip hm xs ys acc]
        | ok pr =>
          obtain ⟨place, csig⟩ := pr
          dsimp only
          cases hbn : env.c_base_name x place i with
          | error msg =>
            dsimp only
            simp only [List.append_eq]
            rw [collectMethods_skip hm xs ys acc]
          | ok name =>
            dsimp only
            exact collectMethods_skip hm xs ys _

/-- A method the eligibility check rejects leaves process_methods untouched:
it is skipped and the run continues as if it were absent. -/
theorem process_methods_skip {env : GenEnv} {i : String}
    {o : Option CppTypeAllocationPlace} {m : CppMethod}
    (hm : should_process_method env m = .ok false) (xs ys : List CppMethod) :
    process_methods env i o (xs ++ m :: ys) = process_methods env i o (xs ++ ys) := by
  unfold process_methods
  rw [collectMethods_skip hm xs ys]

/-- Phase one succeeds only when the eligibility check errors on no listed
method. -/
theorem collectMethods_ok_no_spm_error {env : GenEnv} {i : String}
    {o : Option CppTypeAllocationPlace} :
    ∀ {ms : List CppMethod} {acc gs},
      (collectMethods env i o ms acc).2 = .ok gs →
      ∀ m ∈ ms, ∀ e, should_process_method env m ≠ .error e
  | [], _, _, _, m, hm => absurd hm (List.not_mem_nil m)
  | m0 :: ms, acc, gs, h, m, hm => by
    intro e he
    cases hx : should_process_method env m0 with
    | error e2 => simp [collectMethods, hx] at h
    | ok b =>
      rcases List.mem_cons.mp hm with rfl | hm2
      · rw [hx] at he
        cases he
      · cases b with
        | false =>
          simp only [collectMethods, hx] at h
          exact collectMethods_ok_no_spm_error h m hm2 e he
        | true =>
          cases hsig : env.to_ffi_signature m0 o with
          | error msg =>
            simp only [collectMethods, hx, hsig] at h
            exact collectMethods_ok_no_spm_error h m hm2 e he
          | ok pr =>
            cases hbn : env.c_base_name m0 pr.1 i with
            | error msg =>
              simp only [collectMethods, hx, hsig, hbn] at h
              exact collectMethods_ok_no_spm_error h m hm2 e he
            | ok name =>
              simp only [collectMethods, hx, hsig, hbn] at h
              exact collectMethods_ok_no_spm_error h m hm2 e he

/-- A value stored in the multihash after an insertion either was already
stored or is the inserted one. -/
theorem addToMultihash_mem {α : Type} {k : String} {w : α} :
    ∀ {acc : List (String × List α)} {g},
      g ∈ addToMultihash acc k w → ∀ {v}, v ∈ g.2 →
      (∃ g0 ∈ acc, v ∈ g0.2) ∨ v = w
  | [], g, hg, v, hv => by
    simp only [addToMultihash, List.mem_singleton] at hg
    subst hg
    simp only [List.mem_singleton] at hv
    exact Or.inr hv
  | (k0, vs) :: rest, g, hg, v, hv => by
    by_cases hk : k0 = k
    · simp only [addToMultihash, if_pos hk] at hg
      rcases List.mem_cons.mp hg with rfl | hg2
      · rcases List.mem_append.mp hv with hv2 | hv2
        · exact Or.inl ⟨(k0, vs), List.mem_cons_self _ _, hv2⟩
        · simp only [List.mem_singleton] at hv2
          exact Or.inr hv2
      · exact Or.inl ⟨g, List.mem_cons_of_mem _ hg2, hv⟩
    · simp only [addToMultihash, if_neg hk] at hg
      rcases List.mem_cons.mp hg with rfl | hg2
      · exact Or.inl ⟨(k0, vs), List.mem_cons_self _ _, hv⟩
      · rcases addToMultihash_mem hg2 hv with ⟨g0, hg0, hv0⟩ | hveq
        · exact Or.inl ⟨g0, List.mem_cons_of_mem _ hg0, hv0⟩
        · exact Or.inr hveq

/-- Provenance of phase one: every stored value either was in the starting
accumulator or is a listed method that passed the eligibility check, paired
with its translation. -/
theorem collectMethods_ok_mem {env : GenEnv} {i : String}
    {o : Option CppTypeAllocationPlace} :
    ∀ {ms : List CppMethod} {acc gs},
      (collectMethods env i o ms acc).2 = .ok gs →
      ∀ g ∈ gs, ∀ v ∈ g.2,
        (∃ g0 ∈ acc, v ∈ g0.2) ∨
        (v.cpp_method ∈ ms ∧
          should_process_method env v.cpp_method = .ok true)
  | [], acc, gs, h, g, hg, v, hv => by
    cases h
    exact Or.inl ⟨g, hg, hv⟩
  | m0 :: ms, acc, gs, h, g, hg, v, hv => by
    cases hx : should_process_method env m0 with
    | error e2 => simp [collectMethods, hx] at h
    | ok b =>
      cases b with
      | false =>
        simp only [collectMethods, hx] at h
        rcases collectMethods_ok_mem h g hg v hv with hacc | ⟨hm2, hp⟩
        · exact Or.inl hacc
        · exact Or.inr ⟨List.mem_cons_of_mem m0 hm2, hp⟩
      | true =>
        cases hsig : env.to_ffi_signature m0 o with
        | error msg =>
          simp only [collectMethods, hx, hsig] at h
          rcases collectMethods_ok_mem h g hg v hv with hacc | ⟨hm2, hp⟩
          · exact Or.inl hacc
          · exact Or.inr ⟨List.mem_cons_of_mem m0 hm2, hp⟩
        | ok pr =>
          cases hbn : env.c_base_name m0 pr.1 i with
          | error msg =>
            simp only [collectMethods, hx, hsig, hbn] at h
            rcases collectMethods_ok_mem h g hg v hv with hacc | ⟨hm2, hp⟩
            · exact Or.inl hacc
            · exact Or.inr ⟨List.mem_cons_of_mem m0 hm2, hp⟩
          | ok name =>
            simp only [collectMethods, hx, hsig, hbn] at h
            rcases collectMethods_ok_mem h g hg v hv with hacc | ⟨hm2, hp⟩
            · rcases hacc with ⟨g0, hg0, hv0⟩
              rcases addToMultihash_mem hg0 hv0 with h2 | h2
              · exact Or.inl h2
              · subst h2
                exact Or.inr ⟨List.mem_cons_self m0 ms, hx⟩
            · exact Or.inr ⟨List.mem_cons_of_mem m0 hm2, hp⟩

/-- Every entry a resolved group commits pairs one of the group's methods. -/
theorem resolveGroup_entries_mem {env : GenEnv} {key : String}
    {vs : List CppMethodWithFfiSignature} {entries : List CppAndFfiMethod}
    (h : (resolveGroup env key vs).2 = .ok entries) :
    ∀ e ∈ entries, ∃ v ∈ vs, e.cpp_method = v.cpp_method := by
  cases vs with
  | nil =>
    have h0 : (resolveGroup env key
        ([] : List CppMethodWithFfiSignature)).2 = .ok [] := rfl
    rw [h0] at h
    cases h
    intro e he
    simp at he
  | cons v1 tl =>
    cases tl with
    | nil =>
      simp only [resolveGroup] at h
      cases h
      intro e he
      simp only [List.mem_singleton] at he
      subst he
      exact ⟨v1, List.mem_cons_self _ _, rfl⟩
    | cons v2 rest =>
      cases hf : findStrategy env (v1 :: v2 :: rest)
          MethodCaptionStrategy.all with
      | error e0 => simp [resolveGroup, hf] at h
      | ok o0 =>
        cases o0 with
        | none => simp [resolveGroup, hf] at h
        | some s =>
          simp only [resolveGroup, hf] at h
          rcases commitStrategy_ok h with ⟨cs, _, hes⟩
          subst hes
          intro e he
          rcases mem_zipWith he with ⟨v, hv, c, _, hec⟩
          subst hec
          exact ⟨v, hv, rfl⟩

/-- Right-to-left membership transfer along a Forall₂. -/
theorem forall₂_mem_right {α β : Type} {R : α → β → Prop} :
    ∀ {as : List α} {bs : List β}, List.Forall₂ R as bs →
      ∀ {b}, b ∈ bs → ∃ a ∈ as, R a b := by
  intro as bs h
  induction h with
  | nil =>
    intro b hb
    simp at hb
  | cons hr _ ih =>
    intro b hb
    rcases List.mem_cons.mp hb with rfl | hb2
    · exact ⟨_, List.mem_cons_self _ _, hr⟩
    · rcases ih hb2 with ⟨a, ha, hra⟩
      exact ⟨a, List.mem_cons_of_mem _ ha, hra⟩

/-- Every entry of a successful process_methods output comes from a listed
method that passed the eligibility check. -/
theorem process_methods_entries {env : GenEnv} {i : String}
    {o : Option CppTypeAllocationPlace} {ms : List CppMethod}
    {logs : List LogEntry} {out : List CppAndFfiMethod}
    (h : process_methods env i o ms = (logs, .ok out)) :
    ∀ e ∈ out, e.cpp_method ∈ ms ∧
      should_process_method env e.cpp_method = .ok true := by
  rcases process_methods_ok h with ⟨gs, l, hc, hr, hout⟩
  intro e he
  subst hout
  have hel : e ∈ l := (sortByCName_perm l).mem_iff.mp he
  rcases resolveGroups_ok_parts hr with ⟨parts, hfa, hfl⟩
  subst hfl
  rcases List.mem_flatten.mp hel with ⟨p, hp, hep⟩
  rcases forall₂_mem_right hfa hp with ⟨g, hg, hgp⟩
  rcases resolveGroup_entries_mem hgp e hep with ⟨v, hv, hev⟩
  rcases collectMethods_ok_mem hc g hg v hv with ⟨g0, hg0, _⟩ | ⟨hmm, hpass⟩
  · exact absurd hg0 (List.not_mem_nil g0)
  · rw [hev]
    exact ⟨hmm, hpass⟩

/-- Inversion of a successful slot-wrapper synthesis that produced a header:
tuples were observed, they synthesized into methods and descriptors, and the
methods went through process_methods with allocation forced to Heap. -/
theorem generate_slot_wrappers_ok_some {env : GenEnv}
    {hd : CppFfiHeaderData}
    (h : (generate_slot_wrappers env).2 = .ok (some hd)) :
    env.signal_argument_types ≠ [] ∧
    ∃ ms ws logs2 processed,
      slotData env env.signal_argument_types = .ok (ms, ws) ∧
      process_methods env "slots" (some CppTypeAllocationPlace.Heap) ms =
        (logs2, .ok processed) ∧
      hd = ⟨"slots", processed, ws⟩ := by
  by_cases hempty : env.signal_argument_types.isEmpty
  · simp [generate_slot_wrappers, hempty] at h
  · cases hsd : slotData env env.signal_argument_types with
    | error e => simp [generate_slot_wrappers, hempty, hsd] at h
    | ok pr =>
      obtain ⟨ms, ws⟩ := pr
      rcases hpm : process_methods env "slots"
          (some CppTypeAllocationPlace.Heap) ms with ⟨plogs, prr⟩
      cases prr with
      | error e =>
        simp [generate_slot_wrappers, hempty, hsd, hpm] at h
      | ok processed =>
        simp only [generate_slot_wrappers, hempty, hsd, hpm] at h
        cases h
        refine ⟨fun hnil => hempty (by simp [hnil]), ms, ws, plogs,
          processed, rfl, hpm, rfl⟩

/-- The shape of one real-unit header of the run output: its base name comes
from its include file, its method list is nonempty, it carries no slot
wrappers, and its methods are the processed methods of the unit. -/
def unitHeaderSpec (env : GenEnv) (f : String) (hd : CppFfiHeaderData) :
    Prop :=
  hd.include_file_base_name = includeFileBaseName f ∧
  hd.methods ≠ [] ∧ hd.qt_slot_wrappers = [] ∧
  ∃ logs, process_methods env (includeFileBaseName f) none
      (env.methods.filter fun m => m.include_file = f) = (logs, .ok hd.methods)

/-- The real-unit headers of a run correspond, in order, to a subsequence of
the sorted include file list. -/
theorem runUnits_ok_struct {env : GenEnv} :
    ∀ {fl : List String} {hs : List CppFfiHeaderData},
      (runUnits env fl).2 = .ok hs →
      ∃ files, files.Sublist fl ∧ List.Forall₂ (unitHeaderSpec env) files hs
  | [], hs, h => by
    cases h
    exact ⟨[], List.nil_sublist [], List.Forall₂.nil⟩
  | f :: fl, hs, h => by
    rcases hpm : process_methods env (includeFileBaseName f) none
        (env.methods.filter fun m => m.include_file = f) with ⟨plogs, prr⟩
    cases prr with
    | error e => simp [runUnits, hpm] at h
    | ok ms =>
      cases hr2 : (runUnits env fl).2 with
      | error e =>
        by_cases hemp : ms.isEmpty <;>
          simp [runUnits, hpm, hr2, hemp, Except.map] at h
      | ok tl =>
        by_cases hemp : ms.isEmpty
        · simp only [runUnits, hpm, hr2, if_pos hemp] at h
          cases h
          rcases runUnits_ok_struct hr2 with ⟨files, hsub, hfa⟩
          exact ⟨files, hsub.cons f, hfa⟩
        · simp only [runUnits, hpm, hr2, if_neg hemp, Except.map] at h
          cases h
          rcases runUnits_ok_struct hr2 with ⟨files, hsub, hfa⟩
          refine ⟨f :: files, hsub.cons₂ f, List.Forall₂.cons ?_ hfa⟩
          refine ⟨rfl, ?_, rfl, plogs, by rw [hpm]⟩
          intro hnil
          have hnil2 : ms = [] := hnil
          rw [hnil2] at hemp
          exact hemp rfl

/-- Inversion of a successful run: the include files listed, the real units
processed in sorted order, and the optional slots header appended last. -/
theorem run_ok_parts {env : GenEnv} {logs : List LogEntry}
    {hs : List CppFfiHeaderData} (h : run env = (logs, .ok hs)) :
    ∃ files hs1 rest, env.all_include_files = .ok files ∧
      (runUnits env (sortedIncludeFiles files)).2 = .ok hs1 ∧
      hs = hs1 ++ rest ∧
      ((rest = [] ∧ (generate_slot_wrappers env).2 = .ok none) ∨
        (∃ hd, rest = [hd] ∧
          (generate_slot_wrappers env).2 = .ok (some hd))) := by
  cases hfiles : env.all_include_files with
  | error e => simp [run, hfiles] at h
  | ok files =>
    rcases hru : runUnits env (sortedIncludeFiles files) with ⟨rlogs, rr⟩
    cases rr with
    | error e => simp [run, hfiles, hru] at h
    | ok hs1 =>
      rcases hgw : generate_slot_wrappers env with ⟨glogs, gr⟩
      cases gr with
      | error e => simp [run, hfiles, hru, hgw] at h
      | ok head =>
        cases head with
        | none =>
          simp only [run, hfiles, hru, hgw, Option.map_none, Option.getD] at h
          by_cases hnil : hs1 = []
          · subst hnil
            simp at h
          · rw [if_neg (by simpa using hnil)] at h
            cases h
            exact ⟨files, hs1, [], rfl, by rw [hru], by simp,
              Or.inl ⟨rfl, rfl⟩⟩
        | some hd =>
          simp only [run, hfiles, hru, hgw, Option.map_some, Option.getD] at h
          rw [if_neg (by simp)] at h
          cases h
          exact ⟨files, hs1, [hd], rfl, by rw [hru], rfl,
            Or.inr ⟨hd, rfl, rfl⟩⟩

/-- Every method entry anywhere in a successful run output passed the
eligibility check. -/
theorem run_entries {env : GenEnv} {logs : List LogEntry}
    {hs : List CppFfiHeaderData} (h : run env = (logs, .ok hs)) :
    ∀ hd ∈ hs, ∀ e ∈ hd.methods,
      should_process_method env e.cpp_method = .ok true := by
  rcases run_ok_parts h with ⟨files, hs1, rest, _, hru, hsplit, hrest⟩
  subst hsplit
  intro hd hhd e he
  rcases List.mem_append.mp hhd with hhd1 | hhd2
  · rcases runUnits_ok_struct hru with ⟨ufiles, _, hfa⟩
    rcases forall₂_mem_right hfa hhd1 with ⟨f, _, hspec⟩
    rcases hspec.2.2.2 with ⟨logs2, hpm⟩
    exact (process_methods_entries hpm e he).2
  · rcases hrest with ⟨rfl, _⟩ | ⟨hd2, rfl, hgen⟩
    · simp at hhd2
    · simp only [List.mem_singleton] at hhd2
      subst hhd2
      rcases generate_slot_wrappers_ok_some hgen with
        ⟨_, ms, ws, logs2, processed, _, hpm, hhd⟩
      have he2 : e ∈ processed := by
        rw [hhd] at he
        exact he
      exact (process_methods_entries hpm e he2).2

/-- A translated-method value as phase one produces it for A::foo(int). -/
def vFooInt : CppMethodWithFfiSignature :=
  ⟨mFooInt, .Stack, ⟨[⟨tInt⟩], ⟨CppType.void⟩⟩⟩

/-- A translated-method value as phase one produces it for A::foo(double). -/
def vFooDouble : CppMethodWithFfiSignature :=
  ⟨mFooDouble, .Stack, ⟨[⟨tDouble⟩], ⟨CppType.void⟩⟩⟩

/-- A translated-method value as phase one produces it for A::foo_int(). -/
def vFooIntName : CppMethodWithFfiSignature :=
  ⟨mFooIntName, .Stack, ⟨[], ⟨CppType.void⟩⟩⟩

/-- The collision groups of the clash input in first-insertion order. -/
def gsClash1 : List (String × List CppMethodWithFfiSignature) :=
  [("mylib_A_foo", [vFooInt, vFooDouble]),
   ("mylib_A_foo_int", [vFooIntName])]

/-- The same collision groups in the swapped iteration order (another legal
HashMap iteration order of the same map contents). -/
def gsClash2 : List (String × List CppMethodWithFfiSignature) :=
  [("mylib_A_foo_int", [vFooIntName]),
   ("mylib_A_foo", [vFooInt, vFooDouble])]

/-- Observable shape of a resolution result: exported name and original
method name of every entry, in order. -/
def outSig (r : Except GenErr (List CppAndFfiMethod)) :
    Option (List (String × String)) :=
  match r with
  | .ok l => some (l.map fun e => (e.c_name, e.cpp_method.name))
  | .error _ => none

/-- C1 (counterexample).  The claim states that the exported names of all
entries across every header of a successful run are pairwise distinct.  On
the concrete input envClash (class A with foo(int), foo(double) and
foo_int() in one unit) the run succeeds and returns the exported name
mylib_A_foo_int twice: the caption-disambiguated overload foo(int) collides
with the singleton group of foo_int(). -/
theorem C1_counterexample :
    runNames envClash =
      some ["mylib_A_foo_double", "mylib_A_foo_int", "mylib_A_foo_int"] ∧
    ¬ (["mylib_A_foo_double", "mylib_A_foo_int", "mylib_A_foo_int"] :
        List String).Nodup :=
  ⟨rfl, by decide⟩

/-- C1 (amended).  Within each collision group the committed exported names
are pairwise distinct; run-wide uniqueness across groups is not enforced by
the code. -/
theorem C1_theorem : ∀ (env : GenEnv) (key : String)
    (vs : List CppMethodWithFfiSignature) (entries : List CppAndFfiMethod),
    (resolveGroup env key vs).2 = .ok entries →
    (entries.map fun e => e.c_name).Nodup :=
  fun _ _ _ _ h => resolveGroup_names_nodup h

/-- C1 (witness): the amended theorem applied to a concrete singleton
group. -/
theorem C1_witness :
    (([mkCppAndFfiMethod vFooIntName "mylib_A_foo_int"]).map
      fun e => e.c_name).Nodup :=
  C1_theorem envClash "mylib_A_foo_int" [vFooIntName]
    [mkCppAndFfiMethod vFooIntName "mylib_A_foo_int"] rfl

/-- C4 (counterexample).  The claim states that the ordered output is
independent of internal processing order such as hash-map iteration order.
On the clash input, two iteration orders of the same collision groups yield
different ordered outputs: the two entries that share the exported name
mylib_A_foo_int keep their pre-sort relative order through the stable sort,
and that order depends on the group iteration order. -/
theorem C4_counterexample :
    (collectMethods envClash "a" none envClash.methods []).2 = .ok gsClash1 ∧
    gsClash1.Perm gsClash2 ∧
    (processGroups envClash gsClash1).2 ≠ (processGroups envClash gsClash2).2 := by
  refine ⟨rfl, List.Perm.swap _ _ _, fun h => ?_⟩
  have h2 := congrArg outSig h
  exact absurd h2 (by decide)

/-- C4 (amended).  For any two iteration orders of the same collision groups
the successful outputs are permutations of each other, and whenever the
exported names are pairwise distinct the ordered outputs are identical. -/
theorem C4_theorem (env : GenEnv)
    (gs1 gs2 : List (String × List CppMethodWithFfiSignature))
    (l1 l2 : List CppAndFfiMethod) (hperm : gs1.Perm gs2)
    (h1 : (processGroups env gs1).2 = .ok l1)
    (h2 : (processGroups env gs2).2 = .ok l2) :
    l1.Perm l2 ∧ ((l1.map fun e => e.c_name).Nodup → l1 = l2) := by
  cases hr1 : (resolveGroups env gs1).2 with
  | error e => simp [processGroups, hr1, Except.map] at h1
  | ok r1 =>
    cases hr2 : (resolveGroups env gs2).2 with
    | error e => simp [processGroups, hr2, Except.map] at h2
    | ok r2 =>
      simp only [processGroups, hr1, hr2, Except.map] at h1 h2
      have h1e : sortByCName r1 = l1 := by injection h1
      have h2e : sortByCName r2 = l2 := by injection h2
      subst h1e
      subst h2e
      have hp12 := resolveGroups_perm hperm hr1 hr2
      have hl : (sortByCName r1).Perm (sortByCName r2) :=
        ((sortByCName_perm r1).trans hp12).trans (sortByCName_perm r2).symm
      exact ⟨hl, fun hnd => sorted_nodup_names_eq hl
        (sortByCName_sorted r1) (sortByCName_sorted r2) hnd⟩

/-- Two singleton groups, first iteration order. -/
def gsPair1 : List (String × List CppMethodWithFfiSignature) :=
  [("mylib_A_a", [vFooInt]), ("mylib_A_b", [vFooDouble])]

/-- Two singleton groups, swapped iteration order. -/
def gsPair2 : List (String × List CppMethodWithFfiSignature) :=
  [("mylib_A_b", [vFooDouble]), ("mylib_A_a", [vFooInt])]

/-- The common sorted output of both iteration orders of gsPair1. -/
def outPair : List CppAndFfiMethod :=
  [mkCppAndFfiMethod vFooInt "mylib_A_a",
   mkCppAndFfiMethod vFooDouble "mylib_A_b"]

/-- C4 (witness): the amended theorem applied to two concrete iteration
orders with distinct exported names. -/
theorem C4_witness :
    outPair.Perm outPair ∧
      ((outPair.map fun e => e.c_name).Nodup → outPair = outPair) :=
  C4_theorem envClash gsPair1 gsPair2 outPair outPair
    (List.Perm.swap _ _ _) rfl rfl

/-- C6.  A constructor of a class owning pure-virtual methods, a private or
protected member, or a signal member is ineligible, and no wrapper for such a
method ever appears in the output of a successful run. -/
theorem C6_theorem (env : GenEnv) (m : CppMethod)
    (mem : CppMethodClassMembership) (hm : m.class_membership = some mem)
    (hbad : (mem.kind = CppMethodKind.Constructor ∧
        env.has_pure_virtual_methods m.class_name_or_empty = true) ∨
      mem.visibility = CppVisibility.Private ∨
      mem.visibility = CppVisibility.Protected ∨ mem.is_signal = true) :
    should_process_method env m ≠ .ok true ∧
    ∀ logs hs, run env = (logs, .ok hs) →
      ∀ hd ∈ hs, ∀ e ∈ hd.methods, e.cpp_method ≠ m := by
  have h1 : should_process_method env m ≠ .ok true := by
    intro hok
    unfold should_process_method at hok
    by_cases hfake : m.is_fake_inherited_method
    · simp [hfake] at hok
    · rw [if_neg hfake] at hok
      cases hrf : runFilters m env.filters with
      | error e => simp [hrf] at hok
      | ok b =>
        cases b with
        | false => simp [hrf] at hok
        | true =>
          simp only [hrf] at hok
          by_cases hq : m.class_name_or_empty = "QFlags"
          · simp [hq] at hok
          · rw [if_neg hq] at hok
            simp only [hm] at hok
            split_ifs at hok with c1 c2 c3 c4 <;>
              first
                | exact absurd hok (by simp)
                | rcases hbad with hb | hb | hb | hb <;>
                    first
                      | exact c1 hb
                      | exact c2 hb
                      | exact c3 hb
                      | exact c4 hb
  refine ⟨h1, fun logs hs hrun hd hhd e he heq => ?_⟩
  have hpass := run_entries hrun hd hhd e he
  rw [heq] at hpass
  exact h1 hpass

/-- The class membership record of the private witness method. -/
def memPriv : CppMethodClassMembership :=
  ⟨.mk "A" none, false, false, false, false, .Private, false, false,
    .Regular, none⟩

/-- A private member method A::secret() in unit a.h. -/
def mPriv : CppMethod :=
  { memberMethod "A" "secret" [] "a.h" with class_membership := some memPriv }

/-- Input with one public and one private method of class A. -/
def envC6 : GenEnv :=
  { baseEnv with
    methods := [mFooIntName, mPriv]
    all_include_files := .ok ["a.h"] }

/-- The header produced by the C6 witness run: only the public method. -/
def hdrC6 : CppFfiHeaderData :=
  ⟨"a", [mkCppAndFfiMethod vFooIntName "mylib_A_foo_int"], []⟩

/-- The log of the C6 witness run. -/
def logsC6 : List LogEntry :=
  [.status "Generating C++ FFI methods for header: a"]

/-- C6 (witness): the theorem applied to a concrete private method; the
private method is ineligible and the concrete run output does not contain
it. -/
theorem C6_witness :
    should_process_method envC6 mPriv ≠ .ok true ∧
    (mkCppAndFfiMethod vFooIntName "mylib_A_foo_int").cpp_method ≠ mPriv :=
  ⟨(C6_theorem envC6 mPriv memPriv rfl (Or.inr (Or.inl rfl))).1,
    (C6_theorem envC6 mPriv memPriv rfl (Or.inr (Or.inl rfl))).2
      logsC6 [hdrC6] rfl hdrC6 (List.mem_singleton.mpr rfl)
      (mkCppAndFfiMethod vFooIntName "mylib_A_foo_int") (by simp [hdrC6])⟩

/-- C7.  With the filters split around one filter f whose predecessors all
accept a method m that is not fake-inherited: if f returns false, m is merely
skipped and processing continues unchanged without it; if f itself errors,
the eligibility check propagates the error chained under the fixed filter
failure message and no run over a list containing m can return successfully. -/
theorem C7_theorem (env : GenEnv) (m : CppMethod)
    (fs1 fs2 : List (CppMethod → Except GenErr Bool))
    (f : CppMethod → Except GenErr Bool)
    (hsplit : env.filters = fs1 ++ f :: fs2)
    (hpass : ∀ f2 ∈ fs1, f2 m = .ok true)
    (hnf : m.is_fake_inherited_method = false) :
    (f m = .ok false →
      should_process_method env m = .ok false ∧
      ∀ i o xs ys, process_methods env i o (xs ++ m :: ys) =
        process_methods env i o (xs ++ ys)) ∧
    (∀ err, f m = .error err →
      should_process_method env m =
        .error (List.cons "cpp_ffi_generator_filter failed" err) ∧
      ∀ i o ms, m ∈ ms → ∀ logs out,
        process_methods env i o ms ≠ (logs, .ok out)) := by
  constructor
  · intro hf
    have hrf : runFilters m env.filters = .ok false := by
      rw [hsplit]
      exact runFilters_split_false hpass hf
    have hspm := should_process_of_filter_false hnf hrf
    exact ⟨hspm, fun i o xs ys => process_methods_skip hspm xs ys⟩
  · intro err hf
    have hrf : runFilters m env.filters =
        .error (List.cons "cpp_ffi_generator_filter failed" err) := by
      rw [hsplit]
      exact runFilters_split_error hpass hf
    have hspm := should_process_of_filter_error hnf hrf
    refine ⟨hspm, fun i o ms hmem logs out hok => ?_⟩
    rcases process_methods_ok hok with ⟨gs, l, hc, _, _⟩
    exact collectMethods_ok_no_spm_error hc m hmem _ hspm

/-- A filter rejecting every method named blocked. -/
def filterBlock : CppMethod → Except GenErr Bool :=
  fun m => if m.name = "blocked" then .ok false else .ok true

/-- A filter that always errors. -/
def filterBoom : CppMethod → Except GenErr Bool :=
  fun _ => .error ["boom"]

/-- The method the blocking filter rejects. -/
def mBlocked : CppMethod := memberMethod "A" "blocked" [] "a.h"

/-- Input with the blocking filter configured. -/
def envC7 : GenEnv :=
  { baseEnv with
    methods := [mBlocked, mFooIntName]
    all_include_files := .ok ["a.h"]
    filters := [filterBlock] }

/-- Input with the erroring filter configured. -/
def envC7b : GenEnv :=
  { baseEnv with
    methods := [mBlocked, mFooIntName]
    all_include_files := .ok ["a.h"]
    filters := [filterBoom] }

/-- C7 (witness): the theorem applied to concrete filters: the rejected
method is skipped without affecting the rest, and the erroring filter
produces the chained eligibility error. -/
theorem C7_witness :
    (should_process_method envC7 mBlocked = .ok false ∧
      process_methods envC7 "a" none [mBlocked, mFooIntName] =
        process_methods envC7 "a" none [mFooIntName]) ∧
    should_process_method envC7b mBlocked =
      .error ["cpp_ffi_generator_filter failed", "boom"] := by
  have h1 := (C7_theorem envC7 mBlocked [] [] filterBlock rfl
    (by simp) rfl).1 rfl
  have h2 := (C7_theorem envC7b mBlocked [] [] filterBoom rfl
    (by simp) rfl).2 ["boom"] rfl
  exact ⟨⟨h1.1, h1.2 "a" none [] [mFooIntName]⟩, h2.1⟩

/-- An eligible method whose translation or base-name derivation fails is
skipped by phase one: the resulting groups are unchanged and, when phase one
succeeds, the diagnostic is in the log. -/
theorem collectMethods_translate_fail {env : GenEnv} {i : String}
    {o : Option CppTypeAllocationPlace} {m : CppMethod} {msg : GenErr}
    (hok : should_process_method env m = .ok true)
    (hfail : env.to_ffi_signature m o = .error msg ∨
      ∃ place csig, env.to_ffi_signature m o = .ok (place, csig) ∧
        env.c_base_name m place i = .error msg) :
    ∀ (xs ys : List CppMethod) acc,
      (collectMethods env i o (xs ++ m :: ys) acc).2 =
        (collectMethods env i o (xs ++ ys) acc).2 ∧
      ∀ gs, (collectMethods env i o (xs ++ m :: ys) acc).2 = .ok gs →
        LogEntry.debug (unableMsg env m msg) ∈
          (collectMethods env i o (xs ++ m :: ys) acc).1
  | [], ys, acc => by
    rcases hfail with hsig | ⟨place, csig, hsig, hbn⟩
    · constructor
      · simp only [List.nil_append, collectMethods, hok, hsig]
      · intro gs _
        simp only [List.nil_append, collectMethods, hok, hsig]
        exact List.mem_cons_self _ _
    · constructor
      · simp only [List.nil_append, collectMethods, hok, hsig, hbn]
      · intro gs _
        simp only [List.nil_append, collectMethods, hok, hsig, hbn]
        exact List.mem_cons_self _ _
  | x :: xs, ys, acc => by
    cases hx : should_process_method env x with
    | error e =>
      constructor
      · simp only [List.cons_append, collectMethods, hx]
      · intro gs hgs
        simp [List.cons_append, collectMethods, hx] at hgs
    | ok b =>
      cases b with
      | false =>
        simp only [List.cons_append, collectMethods, hx]
        exact collectMethods_translate_fail hok hfail xs ys acc
      | true =>
        cases hsigx : env.to_ffi_signature x o with
        | error msgx =>
          have ih := collectMethods_translate_fail hok hfail xs ys acc
          constructor
          · simp only [List.cons_append, collectMethods, hx, hsigx]
            exact ih.1
          · intro gs hgs
            simp only [List.cons_append, collectMethods, hx, hsigx] at hgs ⊢
            exact List.mem_cons_of_mem _ (ih.2 gs hgs)
        | ok pr =>
          obtain ⟨place2, csig2⟩ := pr
          cases hbnx : env.c_base_name x place2 i with
          | error msgx =>
            have ih := collectMethods_translate_fail hok hfail xs ys acc
            constructor
            · simp only [List.cons_append, collectMethods, hx, hsigx, hbnx]
              exact ih.1
            · intro gs hgs
              simp only [List.cons_append, collectMethods, hx, hsigx,
                hbnx] at hgs ⊢
              exact List.mem_cons_of_mem _ (ih.2 gs hgs)
          | ok name =>
            simp only [List.cons_append, collectMethods, hx, hsigx, hbnx]
            exact collectMethods_translate_fail hok hfail xs ys _

/-- C8.  An eligible method whose FFI signature translation or base-name
derivation fails is skipped alone: the run result is as if the method were
absent, and a successful run logs the diagnostic for it; the failure never by
itself makes the run error. -/
theorem C8_theorem (env : GenEnv) (m : CppMethod) (i : String)
    (o : Option CppTypeAllocationPlace) (msg : GenErr)
    (hok : should_process_method env m = .ok true)
    (hfail : env.to_ffi_signature m o = .error msg ∨
      ∃ place csig, env.to_ffi_signature m o = .ok (place, csig) ∧
        env.c_base_name m place i = .error msg)
    (xs ys : List CppMethod) :
    (process_methods env i o (xs ++ m :: ys)).2 =
      (process_methods env i o (xs ++ ys)).2 ∧
    ∀ logs out, process_methods env i o (xs ++ m :: ys) = (logs, .ok out) →
      LogEntry.debug (unableMsg env m msg) ∈ logs := by
  have hcol := collectMethods_translate_fail hok hfail xs ys []
  constructor
  · unfold process_methods
    rcases hc1 : collectMethods env i o (xs ++ m :: ys) [] with ⟨l1, r1⟩
    rcases hc2 : collectMethods env i o (xs ++ ys) [] with ⟨l2, r2⟩
    have hr : r1 = r2 := by
      have h2 := hcol.1
      rw [hc1, hc2] at h2
      exact h2
    subst hr
    cases r1 with
    | error e => rfl
    | ok gs => rfl
  · intro logs out hpm
    rcases hc1 : collectMethods env i o (xs ++ m :: ys) [] with ⟨clogs, cr⟩
    cases cr with
    | error e => simp [process_methods, hc1] at hpm
    | ok gs =>
      have hmemlog : LogEntry.debug (unableMsg env m msg) ∈ clogs := by
        have h2 := hcol.2 gs (by rw [hc1])
        rw [hc1] at h2
        exact h2
      simp only [process_methods, hc1] at hpm
      cases hr : (resolveGroups env gs).2 with
      | error e =>
        rw [show processGroups env gs =
            ((resolveGroups env gs).1, (resolveGroups env gs).2.map sortByCName)
          from rfl, hr] at hpm
        simp [Except.map] at hpm
      | ok l =>
        rw [show processGroups env gs =
            ((resolveGroups env gs).1, (resolveGroups env gs).2.map sortByCName)
          from rfl, hr] at hpm
        simp only [Except.map] at hpm
        have hlogs := congrArg Prod.fst hpm
        simp only at hlogs
        rw [← hlogs]
        exact List.mem_cons_of_mem _ (List.mem_append.mpr (Or.inl hmemlog))

/-- A translation that fails on every method named bad. -/
def envC8 : GenEnv :=
  { baseEnv with
    methods := [memberMethod "A" "bad" [] "a.h", mFooIntName]
    all_include_files := .ok ["a.h"]
    to_ffi_signature := fun m ovr =>
      if m.name = "bad" then .error ["no mapping"]
      else .ok (ovr.getD CppTypeAllocationPlace.Stack,
        ⟨m.arguments.map fun a => ⟨a.argument_type⟩, ⟨m.return_type⟩⟩) }

/-- The method whose translation fails in envC8. -/
def mBad : CppMethod := memberMethod "A" "bad" [] "a.h"

/-- C8 (witness): the theorem applied to a concrete failing translation: the
result equals the one without the method, and the diagnostic line is in the
log of the successful run. -/
theorem C8_witness :
    (process_methods envC8 "a" none [mBad, mFooIntName]).2 =
      (process_methods envC8 "a" none [mFooIntName]).2 ∧
    LogEntry.debug (unableMsg envC8 mBad ["no mapping"]) ∈
      (process_methods envC8 "a" none [mBad, mFooIntName]).1 := by
  have h := C8_theorem envC8 mBad "a" none ["no mapping"] rfl
    (Or.inl rfl) [] [mFooIntName]
  exact ⟨h.1, h.2 (process_methods envC8 "a" none [mBad, mFooIntName]).1
    ((process_methods envC8 "a" none [mBad, mFooIntName]).2.toOption.getD [])
    (by rfl)⟩

/-- Insertion into the multihash keeps every per-key list nonempty. -/
theorem addToMultihash_nonempty {α : Type} {k : String} {w : α} :
    ∀ {acc : List (String × List α)}, (∀ g ∈ acc, g.2 ≠ []) →
      ∀ g ∈ addToMultihash acc k w, g.2 ≠ []
  | [], _, g, hg => by
    simp only [addToMultihash, List.mem_singleton] at hg
    subst hg
    simp
  | (k0, vs) :: rest, hacc, g, hg => by
    by_cases hk : k0 = k
    · simp only [addToMultihash, if_pos hk] at hg
      rcases List.mem_cons.mp hg with rfl | hg2
      · simp
      · exact hacc g (List.mem_cons_of_mem _ hg2)
    · simp only [addToMultihash, if_neg hk] at hg
      rcases List.mem_cons.mp hg with rfl | hg2
      · exact hacc _ (List.mem_cons_self _ _)
      · exact addToMultihash_nonempty
          (fun g2 h2 => hacc g2 (List.mem_cons_of_mem _ h2)) g hg2

/-- Phase one never produces an empty collision group. -/
theorem collectMethods_groups_nonempty {env : GenEnv} {i : String}
    {o : Option CppTypeAllocationPlace} :
    ∀ {ms : List CppMethod} {acc gs}, (∀ g ∈ acc, g.2 ≠ []) →
      (collectMethods env i o ms acc).2 = .ok gs → ∀ g ∈ gs, g.2 ≠ []
  | [], _, _, hacc, h => by
    cases h
    exact hacc
  | m0 :: ms, acc, gs, hacc, h => by
    cases hx : should_process_method env m0 with
    | error e2 => simp [collectMethods, hx] at h
    | ok b =>
      cases b with
      | false =>
        simp only [collectMethods, hx] at h
        exact collectMethods_groups_nonempty hacc h
      | true =>
        cases hsig : env.to_ffi_signature m0 o with
        | error msg =>
          simp only [collectMethods, hx, hsig] at h
          exact collectMethods_groups_nonempty hacc h
        | ok pr =>
          obtain ⟨place, csig⟩ := pr
          cases hbn : env.c_base_name m0 place i with
          | error msg =>
            simp only [collectMethods, hx, hsig, hbn] at h
            exact collectMethods_groups_nonempty hacc h
          | ok name =>
            simp only [collectMethods, hx, hsig, hbn] at h
            exact collectMethods_groups_nonempty
              (addToMultihash_nonempty hacc) h

/-- Pointwise strengthening of a Forall₂ using left membership. -/
theorem forall₂_imp_mem {α β : Type} {R S : α → β → Prop} :
    ∀ {as : List α} {bs : List β}, List.Forall₂ R as bs →
      (∀ a ∈ as, ∀ b, R a b → S a b) → List.Forall₂ S as bs := by
  intro as bs h
  induction h with
  | nil => exact fun _ => List.Forall₂.nil
  | cons hr _ ih =>
    intro himp
    exact List.Forall₂.cons
      (himp _ (List.mem_cons_self _ _) _ hr)
      (ih fun a ha b hb => himp a (List.mem_cons_of_mem _ ha) b hb)

/-- C2.  In a successful unit, every collision group resolves per the spec:
a singleton keeps the base name, a larger group commits the first strategy of
the fixed MethodCaptionStrategy.all order whose captions are pairwise
distinct (an empty caption keeps the bare base name, others append an
underscore and the caption), and the final entries are sorted ascending by
exported name. -/
theorem C2_theorem (env : GenEnv) (i : String)
    (o : Option CppTypeAllocationPlace) (ms : List CppMethod)
    (logs : List LogEntry) (out : List CppAndFfiMethod)
    (h : process_methods env i o ms = (logs, .ok out)) :
    out.Sorted cNameLe ∧
    ∃ gs parts, (collectMethods env i o ms []).2 = .ok gs ∧
      List.Forall₂ (fun g p => groupResolutionSpec env g.1 g.2 p) gs parts ∧
      out.Perm parts.flatten := by
  rcases process_methods_ok h with ⟨gs, l, hc, hr, hout⟩
  subst hout
  refine ⟨sortByCName_sorted l, gs, ?_⟩
  rcases resolveGroups_ok_parts hr with ⟨parts, hfa, hfl⟩
  have hne := collectMethods_groups_nonempty (by simp) hc
  refine ⟨parts, hc, ?_, ?_⟩
  · exact forall₂_imp_mem hfa
      (fun g hg p hok => resolveGroup_ok_spec (hne g hg) hok)
  · rw [← hfl]
    exact sortByCName_perm l

/-- C2 (witness): the theorem applied to a concrete one-method unit. -/
theorem C2_witness :
    ([mkCppAndFfiMethod vFooIntName "mylib_A_foo_int"] :
      List CppAndFfiMethod).Sorted cNameLe ∧
    ∃ gs parts,
      (collectMethods envClash "a" none [mFooIntName] []).2 = .ok gs ∧
      List.Forall₂ (fun g p => groupResolutionSpec envClash g.1 g.2 p)
        gs parts ∧
      ([mkCppAndFfiMethod vFooIntName "mylib_A_foo_int"] :
        List CppAndFfiMethod).Perm parts.flatten :=
  C2_theorem envClash "a" none [mFooIntName]
    [.status "Generating C++ FFI methods for header: a"]
    [mkCppAndFfiMethod vFooIntName "mylib_A_foo_int"] rfl

/-- Captions that are computed but collide force the strategy check to
reject. -/
theorem checkStrategy_false_of_dup {env : GenEnv} {s : MethodCaptionStrategy}
    {vs : List CppMethodWithFfiSignature} {cs : List String}
    (hcs : captionsOf env s vs = .ok cs) (hdup : ¬ cs.Nodup) :
    checkStrategy env s vs [] = .ok false := by
  rcases @checkStrategy_no_error env s vs [] cs hcs with ht | hf
  · rcases checkStrategy_true ht with ⟨cs2, hcs2, hnd, _⟩
    rw [hcs] at hcs2
    cases hcs2
    exact absurd hnd hdup
  · exact hf

/-- When every strategy check rejects, the strategy search finds nothing. -/
theorem findStrategy_none_of_all {env : GenEnv}
    {vs : List CppMethodWithFfiSignature} :
    ∀ {ss : List MethodCaptionStrategy},
      (∀ s ∈ ss, checkStrategy env s vs [] = .ok false) →
      findStrategy env vs ss = .ok none
  | [], _ => rfl
  | s :: ss, hall => by
    have h0 := hall s (List.mem_cons_self _ _)
    simp only [findStrategy, h0]
    exact findStrategy_none_of_all
      (fun s2 h2 => hall s2 (List.mem_cons_of_mem _ h2))

/-- C3.  When a collision group of more than one member defeats every caption
strategy (each strategy computes its captions but they collide), the whole
run fails with the all-strategies-failed (NamingExhausted) error rather than
returning partial output, and the error path logs the human readable
signature of every colliding method. -/
theorem C3_theorem (env : GenEnv) (i : String)
    (o : Option CppTypeAllocationPlace) (ms : List CppMethod)
    (gs : List (String × List CppMethodWithFfiSignature))
    (key : String) (vs : List CppMethodWithFfiSignature)
    (hc : (collectMethods env i o ms []).2 = .ok gs)
    (hmem : (key, vs) ∈ gs)
    (hlen : 1 < vs.length)
    (hall : ∀ s ∈ MethodCaptionStrategy.all, ∃ cs,
      captionsOf env s vs = .ok cs ∧ ¬ cs.Nodup) :
    (∀ logs out, process_methods env i o ms ≠ (logs, .ok out)) ∧
    resolveGroup env key vs =
      (exhaustionDump env vs,
        .error (unexpectedErr "all type caption strategies have failed")) ∧
    ∀ v ∈ vs, LogEntry.error ("  " ++ env.short_text v.cpp_method) ∈
      (resolveGroup env key vs).1 := by
  have hchecks : ∀ s ∈ MethodCaptionStrategy.all,
      checkStrategy env s vs [] = .ok false := fun s hs => by
    rcases hall s hs with ⟨cs, hcs, hdup⟩
    exact checkStrategy_false_of_dup hcs hdup
  have hfind := findStrategy_none_of_all hchecks
  have hresolve : resolveGroup env key vs =
      (exhaustionDump env vs,
        .error (unexpectedErr "all type caption strategies have failed")) := by
    cases vs with
    | nil => simp at hlen
    | cons v1 tl =>
      cases tl with
      | nil => simp at hlen
      | cons v2 rest => simp only [resolveGroup, hfind]
  refine ⟨?_, hresolve, ?_⟩
  · intro logs out hok
    rcases process_methods_ok hok with ⟨gs2, l, hc2, hr, _⟩
    have hgs : gs2 = gs := by
      rw [hc] at hc2
      cases hc2
      rfl
    subst hgs
    rcases resolveGroups_ok_of_mem hr hmem with ⟨es, hes⟩
    rw [hresolve] at hes
    simp at hes
  · intro v hv
    rw [hresolve]
    exact List.mem_cons_of_mem _
      (List.mem_cons_of_mem _ (List.mem_map_of_mem _ hv))

/-- A method that appears three times identically in the input data. -/
def mDup : CppMethod := memberMethod "A" "dup" [tInt] "a.h"

/-- The translated value of mDup. -/
def vDup : CppMethodWithFfiSignature :=
  ⟨mDup, .Stack, ⟨[⟨tInt⟩], ⟨CppType.void⟩⟩⟩

/-- Input containing three identical methods, indistinguishable under every
caption strategy. -/
def envC3 : GenEnv :=
  { baseEnv with
    methods := [mDup, mDup, mDup]
    all_include_files := .ok ["a.h"] }

/-- C3 (witness): the theorem applied to three identical colliding methods:
the group resolution returns the NamingExhausted error together with its
dump, which names each colliding signature. -/
theorem C3_witness :
    resolveGroup envC3 "mylib_A_dup" [vDup, vDup, vDup] =
      (exhaustionDump envC3 [vDup, vDup, vDup],
        .error (unexpectedErr "all type caption strategies have failed")) ∧
    LogEntry.error ("  " ++ envC3.short_text vDup.cpp_method) ∈
      (resolveGroup envC3 "mylib_A_dup" [vDup, vDup, vDup]).1 := by
  have h := C3_theorem envC3 "a" none [mDup, mDup, mDup]
    [("mylib_A_dup", [vDup, vDup, vDup])] "mylib_A_dup" [vDup, vDup, vDup]
    rfl (List.mem_singleton.mpr rfl) (by decide)
    (fun s hs => by
      fin_cases hs <;> exact ⟨["int", "int", "int"], rfl, by decide⟩)
  exact ⟨h.2.1, h.2.2 vDup (by simp)⟩

/-- The five members synthesized for one observed signal tuple, as the spec
describes them: both per-type translations succeed and the chunk is exactly
the five members (constructor, destructor, set, dispatch, upcast) of the
wrapper class named from the library and the joined captions. -/
def slotMembersSpec (env : GenEnv) (types : List CppType)
    (chunk : List CppMethod) : Prop :=
  ∃ ffi caps,
    mapExcept env.to_cpp_ffi_type types = .ok ffi ∧
    mapExcept env.type_caption_full types = .ok caps ∧
    chunk = fiveSlotMembers
      (env.cpp_ffi_lib_name ++ "_SlotWrapper_" ++ joinedArgsCaption caps)
      (.mk CppType.void
        (CppTypeList.ofList (voidPtr :: ffi.map fun t => t.ffi_type)) false)
      types

/-- The descriptor recorded for one observed signal tuple, as the spec
describes it: class name from library and joined captions, the per-argument
FFI types, the callback function-pointer type whose first parameter is the
opaque context pointer, and the receiver id of the dispatch method. -/
def slotWrapperSpec (env : GenEnv) (types : List CppType)
    (w : QtSlotWrapper) : Prop :=
  ∃ ffi caps,
    mapExcept env.to_cpp_ffi_type types = .ok ffi ∧
    mapExcept env.type_caption_full types = .ok caps ∧
    w.class_name =
      env.cpp_ffi_lib_name ++ "_SlotWrapper_" ++ joinedArgsCaption caps ∧
    w.arguments = ffi ∧
    w.function_type = .mk CppType.void
      (CppTypeList.ofList (voidPtr :: ffi.map fun t => t.ffi_type)) false ∧
    env.receiver_id (slotClassMethod w.class_name .Regular "custom_slot" true
      (types.enum.map fun p => ⟨"arg" ++ toString p.1, p.2, false⟩)) =
      .ok w.receiver_id

/-- Inversion of one successful tuple synthesis. -/
theorem slotDataForTuple_ok {env : GenEnv} {types : List CppType}
    {chunk : List CppMethod} {w : QtSlotWrapper}
    (h : slotDataForTuple env types = .ok (chunk, w)) :
    slotMembersSpec env types chunk ∧ slotWrapperSpec env types w := by
  cases hffi : mapExcept env.to_cpp_ffi_type types with
  | error e => simp [slotDataForTuple, hffi] at h
  | ok ffi =>
    cases hcaps : mapExcept env.type_caption_full types with
    | error e => simp [slotDataForTuple, hffi, hcaps] at h
    | ok caps =>
      cases hrid : env.receiver_id (slotClassMethod
          (env.cpp_ffi_lib_name ++ "_SlotWrapper_" ++ joinedArgsCaption caps)
          .Regular "custom_slot" true
          (types.enum.map fun p => ⟨"arg" ++ toString p.1, p.2, false⟩)) with
      | error e => simp [slotDataForTuple, hffi, hcaps, hrid] at h
      | ok rid =>
        simp only [slotDataForTuple, hffi, hcaps, hrid] at h
        cases h
        exact ⟨⟨ffi, caps, hffi, hcaps, rfl⟩,
          ⟨ffi, caps, hffi, hcaps, rfl, rfl, rfl, hrid⟩⟩

/-- Decomposition of the whole successful signal-tuple loop. -/
theorem slotData_ok {env : GenEnv} :
    ∀ {tuples : List (List CppType)} {ms : List CppMethod}
      {ws : List QtSlotWrapper},
      slotData env tuples = .ok (ms, ws) →
      ∃ chunks, List.Forall₂ (slotMembersSpec env) tuples chunks ∧
        ms = chunks.flatten ∧
        List.Forall₂ (slotWrapperSpec env) tuples ws
  | [], ms, ws, h => by
    cases h
    exact ⟨[], List.Forall₂.nil, rfl, List.Forall₂.nil⟩
  | types :: tuples, ms, ws, h => by
    cases ht : slotDataForTuple env types with
    | error e => simp [slotData, ht] at h
    | ok pr =>
      obtain ⟨chunk, w⟩ := pr
      cases hrest : slotData env tuples with
      | error e => simp [slotData, ht, hrest] at h
      | ok pr2 =>
        obtain ⟨ms2, ws2⟩ := pr2
        simp only [slotData, ht, hrest] at h
        cases h
        rcases slotDataForTuple_ok ht with ⟨hmem, hw⟩
        rcases slotData_ok hrest with ⟨chunks, hfa, hfl, hwa⟩
        exact ⟨chunk :: chunks, List.Forall₂.cons hmem hfa,
          by simp [hfl], List.Forall₂.cons hw hwa⟩

/-- C5.  For every observed signal tuple exactly one bridge class is
synthesized, named from the library and the joined captions (no_args for the
empty tuple), with exactly five members (constructor, destructor, set,
dispatch matching the tuple, upcast to QObject), all fed through
process_methods with allocation forced to Heap; the descriptors correspond
one to one and in order to the observed tuples, so no bridge class exists
for an unobserved tuple; with zero observed tuples the synthesizer
contributes nothing and this is not an error. -/
theorem C5_theorem (env : GenEnv) :
    (env.signal_argument_types = [] →
      generate_slot_wrappers env = ([], .ok none)) ∧
    ∀ hd, (generate_slot_wrappers env).2 = .ok (some hd) →
      hd.include_file_base_name = "slots" ∧
      env.signal_argument_types ≠ [] ∧
      List.Forall₂ (slotWrapperSpec env) env.signal_argument_types
        hd.qt_slot_wrappers ∧
      ∃ ms chunks logs2,
        slotData env env.signal_argument_types =
          .ok (ms, hd.qt_slot_wrappers) ∧
        List.Forall₂ (slotMembersSpec env) env.signal_argument_types chunks ∧
        ms = chunks.flatten ∧
        (∀ c ∈ chunks, c.length = 5) ∧
        process_methods env "slots" (some CppTypeAllocationPlace.Heap) ms =
          (logs2, .ok hd.methods) := by
  constructor
  · intro hempty
    simp [generate_slot_wrappers, hempty]
  · intro hd h
    rcases generate_slot_wrappers_ok_some h with
      ⟨hne, ms, ws, logs2, processed, hsd, hpm, hhd⟩
    subst hhd
    rcases slotData_ok hsd with ⟨chunks, hfa, hfl, hwa⟩
    refine ⟨rfl, hne, hwa, ms, chunks, logs2, hsd, hfa, hfl, ?_, hpm⟩
    intro c hc
    rcases forall₂_mem_right hfa hc with ⟨t, _, hspec⟩
    rcases hspec with ⟨ffi, caps, _, _, hchunk⟩
    rw [hchunk]
    rfl

/-- Input with one observed signal tuple (int). -/
def envC5 : GenEnv := { baseEnv with signal_argument_types := [[tInt]] }

/-- The slots header the C5 witness run produces. -/
def hdrC5 : CppFfiHeaderData :=
  (((generate_slot_wrappers envC5).2.toOption).getD none).getD ⟨"", [], []⟩

/-- C5 (witness): the theorem applied to a concrete environment with the
single observed tuple (int), and to one with no observed tuples. -/
theorem C5_witness :
    generate_slot_wrappers baseEnv = ([], .ok none) ∧
    (hdrC5.include_file_base_name = "slots" ∧
      envC5.signal_argument_types ≠ [] ∧
      List.Forall₂ (slotWrapperSpec envC5) envC5.signal_argument_types
        hdrC5.qt_slot_wrappers ∧
      ∃ ms chunks logs2,
        slotData envC5 envC5.signal_argument_types =
          .ok (ms, hdrC5.qt_slot_wrappers) ∧
        List.Forall₂ (slotMembersSpec envC5) envC5.signal_argument_types
          chunks ∧
        ms = chunks.flatten ∧
        (∀ c ∈ chunks, c.length = 5) ∧
        process_methods envC5 "slots" (some CppTypeAllocationPlace.Heap) ms =
          (logs2, .ok hdrC5.methods)) :=
  ⟨(C5_theorem baseEnv).1 rfl, (C5_theorem envC5).2 hdrC5 rfl⟩

/-- Input whose only content is the empty signal tuple, with a translation
that fails on every method: the slots unit comes out empty. -/
def envC9 : GenEnv :=
  { baseEnv with
    signal_argument_types := [[]]
    to_ffi_signature := fun _ _ => .error ["nope"] }

/-- The empty-method slots header envC9 produces. -/
def hdrC9 : CppFfiHeaderData :=
  ⟨"slots", [],
   [⟨"mylib_SlotWrapper_no_args", [],
     .mk CppType.void (CppTypeList.ofList [voidPtr]) false,
     "recv_custom_slot"⟩]⟩

/-- C9 (counterexample).  The claim states that no header of a successful
run has an empty method list, the synthetic slots unit included.  On envC9
the run succeeds and its only header is the slots header with an empty
method list: generate_slot_wrappers pushes the slots header without the
emptiness check the per-unit loop applies. -/
theorem C9_counterexample :
    (run envC9).2 = .ok [hdrC9] ∧ hdrC9.methods = [] :=
  ⟨rfl, rfl⟩

/-- C9 (amended).  Real compilation units with an empty processed method
list are dropped, so every header of a successful run either has a nonempty
method list or is the synthetic slots header. -/
theorem C9_theorem (env : GenEnv) (logs : List LogEntry)
    (hs : List CppFfiHeaderData) (h : run env = (logs, .ok hs)) :
    ∀ hd ∈ hs, hd.methods ≠ [] ∨ hd.include_file_base_name = "slots" := by
  rcases run_ok_parts h with ⟨files, hs1, rest, _, hru, hsplit, hrest⟩
  subst hsplit
  intro hd hhd
  rcases List.mem_append.mp hhd with hhd1 | hhd2
  · rcases runUnits_ok_struct hru with ⟨ufiles, _, hfa⟩
    rcases forall₂_mem_right hfa hhd1 with ⟨f, _, hspec⟩
    exact Or.inl hspec.2.1
  · rcases hrest with ⟨rfl, _⟩ | ⟨hd2, rfl, hgen⟩
    · simp at hhd2
    · simp only [List.mem_singleton] at hhd2
      subst hhd2
      rcases generate_slot_wrappers_ok_some hgen with
        ⟨_, ms, ws, logs2, processed, _, _, hhd⟩
      rw [hhd]
      exact Or.inr rfl

/-- C9 (witness): the amended theorem applied to a concrete run with one
real unit. -/
theorem C9_witness :
    hdrC6.methods ≠ [] ∨ hdrC6.include_file_base_name = "slots" :=
  C9_theorem envC6 logsC6 [hdrC6] rfl hdrC6 (List.mem_singleton.mpr rfl)

/-- The sorted include file list is sorted under the string order. -/
theorem sortedIncludeFiles_sorted (fs : List String) :
    (sortedIncludeFiles fs).Sorted strLeP :=
  List.sorted_insertionSort strLeP fs.dedup

/-- The sorted include file list has no duplicates. -/
theorem sortedIncludeFiles_nodup (fs : List String) :
    (sortedIncludeFiles fs).Nodup :=
  (List.perm_insertionSort strLeP fs.dedup).nodup_iff.mpr (List.nodup_dedup fs)

/-- C10.  The real-unit headers of a successful run appear in ascending
lexicographic order of their include file names (their base names being the
include file names truncated at the first dot), and the synthetic slots
header, when present, is the last element. -/
theorem C10_theorem (env : GenEnv) (logs : List LogEntry)
    (hs : List CppFfiHeaderData) (h : run env = (logs, .ok hs)) :
    ∃ allFiles files realHs slotsPart,
      env.all_include_files = .ok allFiles ∧
      hs = realHs ++ slotsPart ∧
      files.Sublist (sortedIncludeFiles allFiles) ∧
      files.Sorted strLeP ∧ files.Nodup ∧
      List.Forall₂
        (fun f hd => hd.include_file_base_name = includeFileBaseName f)
        files realHs ∧
      (slotsPart = [] ∨
        ∃ hd, slotsPart = [hd] ∧ hd.include_file_base_name = "slots") := by
  rcases run_ok_parts h with ⟨files, hs1, rest, hfiles, hru, hsplit, hrest⟩
  rcases runUnits_ok_struct hru with ⟨ufiles, hsub, hfa⟩
  refine ⟨files, ufiles, hs1, rest, hfiles, hsplit, hsub,
    (sortedIncludeFiles_sorted files).sublist hsub,
    (sortedIncludeFiles_nodup files).sublist hsub,
    forall₂_imp_mem hfa (fun f _ hd hspec => hspec.1), ?_⟩
  rcases hrest with ⟨hrest0, _⟩ | ⟨hd2, hrest1, hgen⟩
  · exact Or.inl hrest0
  · rcases generate_slot_wrappers_ok_some hgen with
      ⟨_, ms, ws, logs2, processed, _, _, hhd⟩
    exact Or.inr ⟨hd2, hrest1, by rw [hhd]⟩

/-- Method A::fa() in unit a.h. -/
def mFa : CppMethod := memberMethod "A" "fa" [] "a.h"

/-- Method B::fb() in unit b.h. -/
def mFb : CppMethod := memberMethod "B" "fb" [] "b.h"

/-- Input with two include files listed out of order. -/
def envC10 : GenEnv :=
  { baseEnv with
    methods := [mFa, mFb]
    all_include_files := .ok ["b.h", "a.h"] }

/-- The two headers of the C10 witness run, in sorted unit order. -/
def hdrC10a : CppFfiHeaderData :=
  ⟨"a", [mkCppAndFfiMethod ⟨mFa, .Stack, ⟨[], ⟨CppType.void⟩⟩⟩ "mylib_A_fa"],
    []⟩

/-- The second header of the C10 witness run. -/
def hdrC10b : CppFfiHeaderData :=
  ⟨"b", [mkCppAndFfiMethod ⟨mFb, .Stack, ⟨[], ⟨CppType.void⟩⟩⟩ "mylib_B_fb"],
    []⟩

/-- The log of the C10 witness run. -/
def logsC10 : List LogEntry :=
  [.status "Generating C++ FFI methods for header: a",
   .status "Generating C++ FFI methods for header: b"]

/-- C10 (witness): the theorem applied to a concrete run with two units
listed out of order: the output headers come back in sorted include-file
order. -/
theorem C10_witness :
    ∃ allFiles files realHs slotsPart,
      envC10.all_include_files = .ok allFiles ∧
      [hdrC10a, hdrC10b] = realHs ++ slotsPart ∧
      files.Sublist (sortedIncludeFiles allFiles) ∧
      files.Sorted strLeP ∧ files.Nodup ∧
      List.Forall₂
        (fun f hd => hd.include_file_base_name = includeFileBaseName f)
        files realHs ∧
      (slotsPart = [] ∨
        ∃ hd, slotsPart = [hd] ∧ hd.include_file_base_name = "slots") :=
  C10_theorem envC10 logsC10 [hdrC10a, hdrC10b] rfl

end CppFfiGen
